import Mathlib

/-!
# MT_find_OOP: wildcard-mask search over the lines of a text file

A shallow embedding of `MT_find_OOP.cpp`.

* `regex_replace_special`, `regex_pattern`, `prepare_pattern` follow
  `MultiThreadedFinder::prepare_pattern`: the mask is turned into the text of
  a regular expression, which is then handed to `std::regex`.
* `std_regex`, `ends`, `regex_search`, `sregex_iterator` describe the part of
  the standard library (`std::regex` with the default ECMAScript grammar,
  `std::sregex_iterator`) that the program calls.  Constructs whose meaning
  differs between library implementations are reported as `Result.unmodelled`
  instead of being guessed.
* `search_in_lines`, `search`, `print_results`, `read_file` and `main` follow
  the functions of the same names.  Threads are described by the order in
  which they append their local buffers (`joined`), `std::sort` by its
  contract (`sort_contract`); `search_admits` collects the runs of `search`
  these two allow.
* `spec_compile`, `cells_match`, `spec_scan` restate the scanner of section 4.4
  of the specification, for comparison with the code.
* `sregex_iterator_run` is the traversal of a line with its step budget made
  visible; `Consuming`, `Tight` and `parse_inv` are the properties of the
  compiled expressions on which the order of the records of a line rests.

Characters are `Char`, strings are `List Char`, `size_t` values are `Nat`
(`search_arith_no_wrap` shows the index arithmetic of `search` stays below
the operands' sum, so it cannot wrap).
-/

namespace MTFind

/-- A line of the file, without its terminating newline. -/
abbrev Line := List Char

/-- The struct `MatchResult` of the source: 1-based line number, 1-based
column of the first matched character, and the matched text. -/
structure MatchResult where
  line_number : Nat
  position : Nat
  match_ : List Char
deriving DecidableEq, Repr

/-- Three-way outcome of the operations that may throw.  `runtime_error` is an
exception derived from `std::runtime_error` (this includes `std::regex_error`);
`unmodelled` marks inputs on which library implementations disagree and for
which this development makes no statement. -/
inductive Result (α : Type) where
  | ok : α → Result α
  | runtime_error : Result α
  | unmodelled : Result α
deriving DecidableEq, Repr

/-! ## The regular expression built from the mask -/

/-- The characters of the class `[\\^$.|?*+()\[\]{}]` used by `prepare_pattern`. -/
def special_chars : List Char :=
  ['\\', '^', '$', '.', '|', '?', '*', '+', '(', ')', '[', ']', '{', '}']

/-- The call `std::regex_replace(std::string(1, ch), std::regex(R"([\\^$.|?*+()\[\]{}])"), R"(\\$&)")`.
The format text is the four characters backslash, backslash, dollar,
ampersand.  In the default (ECMAScript) format rules only `$` introduces an
escape, so a character of the class is replaced by two backslashes followed
by itself; any other character is copied. -/
def regex_replace_special (ch : Char) : List Char :=
  if ch ∈ special_chars then ['\\', '\\', ch] else [ch]

/-- The loop of `prepare_pattern` that fills `regex_pattern`. -/
def regex_pattern : List Char → List Char
  | [] => []
  | ch :: rest =>
    (if ch = '?' then ['.'] else regex_replace_special ch) ++ regex_pattern rest

/-- Abstract syntax of the regular expressions the program can build. -/
inductive Regex where
  | chr (c : Char)
  | any
  | bol
  | eol
  | eps
  | seq (a b : Regex)
  | alt (a b : Regex)
  | star (a : Regex)
  | plus (a : Regex)
  | group (a : Regex)
deriving DecidableEq, Repr

/-- One nesting level of the parser: the alternatives already closed by `|`
and the terms of the alternative being read, both most recent first. -/
structure Frame where
  alts : List Regex
  terms : List Regex
deriving DecidableEq, Repr

/-- Sequence of the terms of one alternative, given most recent first. -/
def mk_seq (terms : List Regex) : Regex :=
  terms.foldl (fun acc t => Regex.seq t acc) Regex.eps

/-- Disjunction of a frame: earlier alternatives have priority. -/
def Frame.close (f : Frame) : Regex :=
  f.alts.foldl (fun acc a => Regex.alt a acc) (mk_seq f.terms)

/-- Append a term to the current alternative. -/
def Frame.push (f : Frame) (t : Regex) : Frame :=
  { f with terms := t :: f.terms }

/-- Close the current alternative at a `|`. -/
def Frame.next_alt (f : Frame) : Frame :=
  { alts := mk_seq f.terms :: f.alts, terms := [] }

/-- Terms a quantifier may follow in every implementation: a character, `.`
or a parenthesised group. -/
def quantifiable : Regex → Bool
  | Regex.chr _ => true
  | Regex.any => true
  | Regex.group _ => true
  | _ => false

/-- Apply a quantifier to the most recent term of the current alternative. -/
def Frame.quantify (f : Frame) (q : Regex → Regex) : Option Frame :=
  match f.terms with
  | [] => none
  | t :: ts => if quantifiable t then some { f with terms := q t :: ts } else none

/-- State of the parser: the frames of the enclosing groups, the frame being
read, and whether the previous character was a backslash that still awaits
the character it escapes. -/
structure PState where
  stack : List Frame
  cur : Frame
  esc : Bool
deriving DecidableEq, Repr

/-- One character of the pattern text read by the constructor
`std::regex(regex_pattern)`, ECMAScript grammar.  A backslash followed by a
character of `special_chars` is that character taken literally; a `)` without
an open group is an error (`std::regex_error`).  Bracket expressions, braces,
`?`, escapes of other characters and quantifiers that follow nothing
quantifiable are left unmodelled. -/
def parse_char (st : PState) (c : Char) : Result PState :=
  if st.esc then
    if c ∈ special_chars then
      Result.ok { st with cur := st.cur.push (Regex.chr c), esc := false }
    else Result.unmodelled
  else if c = '\\' then Result.ok { st with esc := true }
  else if c = '.' then Result.ok { st with cur := st.cur.push Regex.any }
  else if c = '^' then Result.ok { st with cur := st.cur.push Regex.bol }
  else if c = '$' then Result.ok { st with cur := st.cur.push Regex.eol }
  else if c = '*' then
    match st.cur.quantify Regex.star with
    | some cur2 => Result.ok { st with cur := cur2 }
    | none => Result.unmodelled
  else if c = '+' then
    match st.cur.quantify Regex.plus with
    | some cur2 => Result.ok { st with cur := cur2 }
    | none => Result.unmodelled
  else if c = '|' then Result.ok { st with cur := st.cur.next_alt }
  else if c = '(' then
    Result.ok { st with stack := st.cur :: st.stack, cur := { alts := [], terms := [] } }
  else if c = ')' then
    match st.stack with
    | [] => Result.runtime_error
    | f :: fs => Result.ok { st with stack := fs, cur := f.push (Regex.group st.cur.close) }
  else if c = '[' ∨ c = ']' ∨ c = '{' ∨ c = '}' ∨ c = '?' then Result.unmodelled
  else Result.ok { st with cur := st.cur.push (Regex.chr c) }

/-- The constructor `std::regex(regex_pattern)` on the remaining pattern text.
At the end of the text a pending backslash and an unclosed group are errors
(`std::regex_error`). -/
def parse : List Char → PState → Result Regex
  | [], st =>
    if st.esc then Result.runtime_error
    else
      match st.stack with
      | [] => Result.ok st.cur.close
      | _ :: _ => Result.runtime_error
  | c :: rest, st =>
    match parse_char st c with
    | Result.ok st2 => parse rest st2
    | Result.runtime_error => Result.runtime_error
    | Result.unmodelled => Result.unmodelled

/-- The call `std::regex(regex_pattern)`. -/
def std_regex (pattern : List Char) : Result Regex :=
  parse pattern { stack := [], cur := { alts := [], terms := [] }, esc := false }

/-- The function `MultiThreadedFinder::prepare_pattern`: the value stored in
`pattern_`, or the exception thrown by the `std::regex` constructor. -/
def prepare_pattern (mask : List Char) : Result Regex :=
  std_regex (regex_pattern mask)

/-! ## Matching -/

/-- Greedy repetition of `f`: first one more round (rounds that consume
nothing are not taken), then stop. -/
def star_iter (f : Nat → List Nat) : Nat → Nat → List Nat
  | 0, p => [p]
  | fuel + 1, p =>
    ((f p).filter (fun e => decide (p < e))).flatMap (star_iter f fuel) ++ [p]

/-- All positions at which a match of the expression that starts at `p` can
end, in the order a backtracking matcher tries them (the first one is the
match that is reported).  `.` matches every character except line feed and
carriage return; `^` and `$` match at the two ends of the line only (in a
pattern built by `prepare_pattern` a `^` always follows a backslash, so it is
never met at the position where a search starts). -/
def ends (line : Line) : Regex → Nat → List Nat
  | Regex.chr c, p => if line.get? p = some c then [p + 1] else []
  | Regex.any, p =>
    match line.get? p with
    | some d => if d = '\n' ∨ d = '\r' then [] else [p + 1]
    | none => []
  | Regex.bol, p => if p = 0 then [p] else []
  | Regex.eol, p => if p = line.length then [p] else []
  | Regex.eps, p => [p]
  | Regex.seq a b, p => (ends line a p).flatMap (ends line b)
  | Regex.alt a b, p => ends line a p ++ ends line b p
  | Regex.star a, p => star_iter (ends line a) line.length p
  | Regex.plus a, p => (ends line a p).flatMap (star_iter (ends line a) line.length)
  | Regex.group a, p => ends line a p

/-- The match that starts exactly at `p`, if any; with `not_null` an empty
match is passed over (`match_not_null`). -/
def match_at (re : Regex) (line : Line) (not_null : Bool) (p : Nat) : Option Nat :=
  ((ends line re p).filter (fun e => !not_null || decide (p < e))).head?

/-- The call `std::regex_search` on the rest of the line from `s`: the
leftmost start at which the expression matches, with the end of the match. -/
def regex_search (re : Regex) (line : Line) (s : Nat) : Option (Nat × Nat) :=
  (List.range' s (line.length + 1 - s)).findSome?
    (fun p => (match_at re line false p).map (fun e => (p, e)))

/-- Successive values of a `std::sregex_iterator`, as (start, end) pairs.
After a non-empty match the search resumes at its end.  After an empty match
at `s` the iterator stops if `s` is the end of the line; otherwise it first
looks for a non-empty match starting at `s` itself and, failing that, searches
from `s + 1`.  `after_empty` tells which of the two situations holds. -/
def sregex_iterator_from (re : Regex) (line : Line) : Nat → Nat → Bool → List (Nat × Nat)
  | 0, _, _ => []
  | fuel + 1, s, after_empty =>
    if after_empty then
      match match_at re line true s with
      | some e => (s, e) :: sregex_iterator_from re line fuel e false
      | none => sregex_iterator_from re line fuel (s + 1) false
    else
      match regex_search re line s with
      | none => []
      | some (p, e) =>
        (p, e) ::
          (if e = p then
            (if e = line.length then [] else sregex_iterator_from re line fuel p true)
          else sregex_iterator_from re line fuel e false)

/-- The range `std::sregex_iterator(line.begin(), line.end(), pattern_)` up
to the end iterator.  Every step moves forward in the line, so
`2 * length + 3` steps are enough. -/
def sregex_iterator (re : Regex) (line : Line) : List (Nat × Nat) :=
  sregex_iterator_from re line (2 * line.length + 3) 0 false

/-- The traversal of `sregex_iterator_from` with the step budget made
visible: `none` when the budget is used up before the end iterator is
reached. -/
def sregex_iterator_run (re : Regex) (line : Line) :
    Nat → Nat → Bool → Option (List (Nat × Nat))
  | 0, _, _ => none
  | fuel + 1, s, after_empty =>
    if after_empty then
      match match_at re line true s with
      | some e => (sregex_iterator_run re line fuel e false).map (fun r => (s, e) :: r)
      | none => sregex_iterator_run re line fuel (s + 1) false
    else
      match regex_search re line s with
      | none => some []
      | some (p, e) =>
        if e = p then
          (if e = line.length then some [(p, e)]
          else (sregex_iterator_run re line fuel p true).map (fun r => (p, e) :: r))
        else (sregex_iterator_run re line fuel e false).map (fun r => (p, e) :: r)

/-! ## The finder -/

/-- The records pushed to `local_results` for line index `i`. -/
def line_results (re : Regex) (line : Line) (i : Nat) : List MatchResult :=
  (sregex_iterator re line).map
    (fun m => { line_number := i + 1, position := m.1 + 1,
                match_ := (line.drop m.1).take (m.2 - m.1) })

/-- The buffer `local_results` that `search_in_lines(start_line, end_line)`
has built when it reaches the locked append. -/
def search_in_lines (re : Regex) (lines : List Line) (start_line end_line : Nat) :
    List MatchResult :=
  (List.range' start_line (end_line - start_line)).flatMap
    (fun i => line_results re (lines.getD i []) i)

/-- The loop `while (std::getline(file, line)) lines_.push_back(line)` over the
characters of the file: lines end at a line feed, which is dropped; text after
the last line feed is a line when it is not empty.  `cur` holds the characters
of the line being read, most recent first. -/
def getlines : List Char → Line → List Line
  | [], cur => if cur = [] then [] else [cur.reverse]
  | c :: rest, cur =>
    if c = '\n' then cur.reverse :: getlines rest [] else getlines rest (c :: cur)

/-- The function `MultiThreadedFinder::read_file`; `file` is the content of the
file named `filename_`, or `none` when the stream cannot be opened. -/
def read_file (file : Option (List Char)) : Result (List Line) :=
  match file with
  | none => Result.runtime_error
  | some content => Result.ok (getlines content [])

/-- The data members of `MultiThreadedFinder` that the search uses. -/
structure MultiThreadedFinder where
  mask_ : List Char
  pattern_ : Regex
  lines_ : List Line
  results_ : List MatchResult
  match_count_ : Nat
deriving DecidableEq, Repr

/-- The constructor: `prepare_pattern()` and then `read_file()`; an exception
of either leaves no object behind. -/
def MultiThreadedFinder.init (file : Option (List Char)) (mask : List Char) :
    Result MultiThreadedFinder :=
  match prepare_pattern mask with
  | Result.runtime_error => Result.runtime_error
  | Result.unmodelled => Result.unmodelled
  | Result.ok re =>
    match read_file file with
    | Result.runtime_error => Result.runtime_error
    | Result.unmodelled => Result.unmodelled
    | Result.ok ls =>
      Result.ok { mask_ := mask, pattern_ := re, lines_ := ls, results_ := [], match_count_ := 0 }

/-- The value of `num_threads` in `search`, from what
`std::thread::hardware_concurrency()` returned. -/
def num_threads (hardware_concurrency : Nat) : Nat :=
  if hardware_concurrency = 0 then 1 else hardware_concurrency

/-- The value `(lines_.size() + num_threads - 1) / num_threads`. -/
def lines_per_thread (N W : Nat) : Nat := (N + W - 1) / W

/-- The value of `start_line` in round `i` of the loop of `search`. -/
def start_line (N W i : Nat) : Nat := i * lines_per_thread N W

/-- The value of `end_line` in round `i` of the loop of `search`. -/
def end_line (N W i : Nat) : Nat := min (start_line N W i + lines_per_thread N W) N

/-- The rounds of the loop of `search` in which a thread is created. -/
def launched (N W : Nat) : List Nat :=
  (List.range W).filter (fun i => decide (start_line N W i < N))

/-- The buffer `local_results` of the thread created in round `i`. -/
def local_results (f : MultiThreadedFinder) (W i : Nat) : List MatchResult :=
  search_in_lines f.pattern_ f.lines_
    (start_line f.lines_.length W i) (end_line f.lines_.length W i)

/-- The effect of one thread on the shared members once it has left
`search_in_lines`: its buffer is appended to `results_` under the lock, and
`match_count_` has been incremented once for every record of the buffer. -/
def append_results (st : MultiThreadedFinder) (buf : List MatchResult) : MultiThreadedFinder :=
  { st with results_ := st.results_ ++ buf, match_count_ := st.match_count_ + buf.length }

/-- The object after all threads have been joined, when they reached the
locked append in the order `order`. -/
def joined (f : MultiThreadedFinder) (W : Nat) (order : List Nat) : MultiThreadedFinder :=
  order.foldl (fun st i => append_results st (local_results f W i)) f

/-- The guarantee of `std::sort(first, last, comp)` with the comparison
`a.line_number < b.line_number`: the range afterwards is a rearrangement of
the range before, and no element is followed by one that compares less.  The
order of elements with equal line numbers is not specified. -/
def sort_contract (input output : List MatchResult) : Prop :=
  output.Perm input ∧ output.Pairwise (fun a b => ¬ b.line_number < a.line_number)

instance (input output : List MatchResult) : Decidable (sort_contract input output) :=
  inferInstanceAs (Decidable (_ ∧ _))

/-- The runs of `search` the source allows: `order` is an order in which the
created threads append, and `sorted` is a result `std::sort` may leave in
`results_`. -/
def search_admits (f : MultiThreadedFinder) (hardware_concurrency : Nat) (order : List Nat)
    (sorted : List MatchResult) : Prop :=
  order.Perm (launched f.lines_.length (num_threads hardware_concurrency)) ∧
  sort_contract (joined f (num_threads hardware_concurrency) order).results_ sorted

instance (f : MultiThreadedFinder) (hw : Nat) (order : List Nat) (sorted : List MatchResult) :
    Decidable (search_admits f hw order sorted) :=
  inferInstanceAs (Decidable (_ ∧ _))

/-- The object when `search` calls `print_results`. -/
def search (f : MultiThreadedFinder) (hardware_concurrency : Nat) (order : List Nat)
    (sorted : List MatchResult) : MultiThreadedFinder :=
  { joined f (num_threads hardware_concurrency) order with results_ := sorted }

/-- The lines `print_results` writes to standard output. -/
def print_results (f : MultiThreadedFinder) : List String :=
  toString f.match_count_ ::
    f.results_.map (fun r =>
      toString r.line_number ++ " " ++ toString r.position ++ " " ++ String.mk r.match_)

/-- The function `main`: exit status and the lines written to standard
output.  `args` are the command-line arguments after the program name, `fs`
gives the content of a file that can be opened. -/
def main (args : List (List Char)) (fs : List Char → Option (List Char))
    (hardware_concurrency : Nat) (order : List Nat) (sorted : List MatchResult) :
    Result (Nat × List String) :=
  match args with
  | [filename, mask] =>
    match MultiThreadedFinder.init (fs filename) mask with
    | Result.runtime_error => Result.ok (1, [])
    | Result.unmodelled => Result.unmodelled
    | Result.ok f => Result.ok (0, print_results (search f hardware_concurrency order sorted))
  | _ => Result.ok (1, [])

/-! ## The scanner of the specification (section 4.4), for comparison -/

/-- A cell of the specification's compiled mask. -/
inductive Cell where
  | Wildcard
  | Literal (c : Char)
deriving DecidableEq, Repr

/-- The specification's mask compiler: `?` is the wildcard, every other
character stands for itself. -/
def spec_compile (mask : List Char) : List Cell :=
  mask.map (fun ch => if ch = '?' then Cell.Wildcard else Cell.Literal ch)

/-- Every cell accepts the corresponding character of `text`: wildcard cells
always pass, literal cells require equality; `text` must not be shorter than
the mask. -/
def cells_match : List Cell → List Char → Bool
  | [], _ => true
  | _ :: _, [] => false
  | Cell.Wildcard :: cs, _ :: rest => cells_match cs rest
  | Cell.Literal c :: cs, d :: rest => decide (c = d) && cells_match cs rest

/-- The specification's loop from start position `p`: while `p + L ≤ length`,
on success emit the 1-based column `p + 1` with the matched text and advance
by `L`, on failure advance by one. -/
def spec_scan_from (cells : List Cell) (line : Line) : Nat → Nat → List (Nat × List Char)
  | 0, _ => []
  | fuel + 1, p =>
    if p + cells.length ≤ line.length then
      if cells_match cells (line.drop p) then
        (p + 1, (line.drop p).take cells.length) ::
          spec_scan_from cells line fuel (p + cells.length)
      else spec_scan_from cells line fuel (p + 1)
    else []

/-- The specification's single-line scanner; with a mask of length at least
one every round advances, so `length + 1` rounds are enough. -/
def spec_scan (cells : List Cell) (line : Line) : List (Nat × List Char) :=
  spec_scan_from cells line (line.length + 1) 0

/-- The records of a serial scan of all lines with the compiled mask: the
buffer of the only thread when one thread is used. -/
def scan_lines (mask : List Char) (lines : List Line) : Result (List MatchResult) :=
  match prepare_pattern mask with
  | Result.ok re => Result.ok (search_in_lines re lines 0 lines.length)
  | Result.runtime_error => Result.runtime_error
  | Result.unmodelled => Result.unmodelled

/-! ## Properties named by the specification -/

/-- The relation `R` holds between every record and the one that follows it. -/
def adjacent (R : MatchResult → MatchResult → Prop) : List MatchResult → Prop
  | [] => True
  | [_] => True
  | a :: b :: rest => R a b ∧ adjacent R (b :: rest)

instance adjacent_decidable (R : MatchResult → MatchResult → Prop) [DecidableRel R] :
    (rs : List MatchResult) → Decidable (adjacent R rs)
  | [] => isTrue trivial
  | [_] => isTrue trivial
  | a :: b :: rest =>
    match (inferInstance : Decidable (R a b)), adjacent_decidable R (b :: rest) with
    | isTrue h1, isTrue h2 => isTrue ⟨h1, h2⟩
    | isFalse h1, _ => isFalse (fun h => h1 h.1)
    | _, isFalse h2 => isFalse (fun h => h2 h.2)

/-- Record `b` starts at or after the end of the `L` columns of record `a`
when both are on the same line. -/
def apart (L : Nat) (a b : MatchResult) : Prop :=
  a.line_number = b.line_number → a.position + L ≤ b.position

instance (L : Nat) : DecidableRel (apart L) :=
  fun a b => inferInstanceAs (Decidable (a.line_number = b.line_number → a.position + L ≤ b.position))

/-- Consecutive records of one line lie at least `L` columns apart. -/
def non_overlapping (L : Nat) (rs : List MatchResult) : Prop :=
  adjacent (apart L) rs

instance (L : Nat) (rs : List MatchResult) : Decidable (non_overlapping L rs) :=
  inferInstanceAs (Decidable (adjacent (apart L) rs))

/-- Record `a` comes before record `b` in the file. -/
def file_order (a b : MatchResult) : Prop :=
  a.line_number < b.line_number ∨ (a.line_number = b.line_number ∧ a.position < b.position)

instance : DecidableRel file_order :=
  fun a b => inferInstanceAs (Decidable
    (a.line_number < b.line_number ∨ (a.line_number = b.line_number ∧ a.position < b.position)))

/-- Ascending by line number, then by position. -/
def in_file_order (rs : List MatchResult) : Prop :=
  adjacent file_order rs

instance (rs : List MatchResult) : Decidable (in_file_order rs) :=
  inferInstanceAs (Decidable (adjacent file_order rs))

/-- A record of a file with lines `lines` and a mask of length `L` is well
formed: line number and column are in range and the text is the `L`
characters of the line from that column. -/
def well_formed (lines : List Line) (L : Nat) (r : MatchResult) : Prop :=
  1 ≤ r.line_number ∧ r.line_number ≤ lines.length ∧ 1 ≤ r.position ∧
  r.position - 1 + L ≤ (lines.getD (r.line_number - 1) []).length ∧
  r.match_ = ((lines.getD (r.line_number - 1) []).drop (r.position - 1)).take L

instance (lines : List Line) (L : Nat) (r : MatchResult) : Decidable (well_formed lines L r) :=
  inferInstanceAs (Decidable (_ ∧ _ ∧ _ ∧ _ ∧ _))

/-- The 17 records of a line of 17 matches in the order `std::sort` of
libstdc++ leaves them (introsort: median swap, then one partition round). -/
def introsort_17 : List MatchResult :=
  [9, 17, 16, 15, 14, 13, 12, 11, 10, 1, 8, 7, 6, 5, 4, 3, 2].map
    (fun p => { line_number := 1, position := p, match_ := ['a'] })

/-- For a file whose first line has 16 matches and whose second line has one:
the order `std::sort` of libstdc++ leaves when the thread of line 1 appends
first. -/
def introsort_first : List MatchResult :=
  [2, 16, 15, 14, 13, 12, 11, 10, 9, 8, 7, 6, 5, 4, 3, 1].map
    (fun p => { line_number := 1, position := p, match_ := ['a'] }) ++
  [{ line_number := 2, position := 1, match_ := ['a'] }]

/-- The same file: the order `std::sort` of libstdc++ leaves when the thread of
line 2 appends first. -/
def introsort_second : List MatchResult :=
  [8, 16, 15, 14, 13, 12, 11, 10, 9, 7, 6, 5, 4, 3, 2, 1].map
    (fun p => { line_number := 1, position := p, match_ := ['a'] }) ++
  [{ line_number := 2, position := 1, match_ := ['a'] }]

/-- A mask without characters of the class that `prepare_pattern` escapes:
every character is `?` or outside `special_chars`. -/
def plain_mask (mask : List Char) : Prop :=
  ∀ c ∈ mask, c = '?' ∨ c ∉ special_chars

instance (mask : List Char) : Decidable (plain_mask mask) :=
  inferInstanceAs (Decidable (∀ c ∈ mask, c = '?' ∨ c ∉ special_chars))

/-- The expression one character of a plain mask is compiled to. -/
def plain_atom (ch : Char) : Regex :=
  if ch = '?' then Regex.any else Regex.chr ch

/-- The characters the expression `.` accepts: all but line feed and carriage
return. -/
def dot_accepts (d : Char) : Bool :=
  !(decide (d = '\n') || decide (d = '\r'))

/-- The compiled plain mask accepts the first characters of `text`: `?`
accepts what `.` accepts, any other mask character accepts itself. -/
def plain_match : List Char → List Char → Bool
  | [], _ => true
  | _ :: _, [] => false
  | c :: cs, d :: rest =>
    (if c = '?' then dot_accepts d else decide (d = c)) && plain_match cs rest

/-- A line without line feed and carriage return. -/
def no_terminator (line : Line) : Prop :=
  ∀ d ∈ line, d ≠ '\n' ∧ d ≠ '\r'

instance (line : Line) : Decidable (no_terminator line) :=
  inferInstanceAs (Decidable (∀ d ∈ line, d ≠ '\n' ∧ d ≠ '\r'))

/-- Every match of the expression holds at least one character. -/
def Consuming (R : Regex) : Prop :=
  ∀ (ln : Line) (p e : Nat), e ∈ ends ln R p → p < e

/-- Where the match the expression reports at `p` is empty, the expression
has no match at `p` that is not empty. -/
def Tight (R : Regex) : Prop :=
  ∀ (ln : Line) (p : Nat), match_at R ln false p = some p → match_at R ln true p = none

/-- A frame whose alternatives all hold a character and whose current
alternative holds a term that does. -/
def frame_consuming (f : Frame) : Prop :=
  (∀ a ∈ f.alts, Consuming a) ∧ ∃ t ∈ f.terms, Consuming t

/-- A frame whose closed alternatives all hold a character and whose current
alternative either holds a term that does or consists of repetitions of the
backslash only. -/
def frame_open (f : Frame) : Prop :=
  (∀ a ∈ f.alts, Consuming a) ∧
  ((∃ t ∈ f.terms, Consuming t) ∨ ∀ t ∈ f.terms, t = Regex.star (Regex.chr '\\'))

/-- What holds of the parser state between the pieces `prepare_pattern`
appends to the pattern text. -/
def parse_inv (st : PState) : Prop :=
  (∀ f ∈ st.stack, frame_consuming f) ∧ frame_open st.cur

/-! ## Lemmas on the compilation of plain masks -/

theorem parse_append_plain (c : Char) (rest : List Char) (cur : Frame)
    (h : c = '?' ∨ c ∉ special_chars) :
    parse ((if c = '?' then ['.'] else regex_replace_special c) ++ rest)
        { stack := [], cur := cur, esc := false } =
      parse rest { stack := [], cur := cur.push (plain_atom c), esc := false } := by
  by_cases hq : c = '?'
  · subst hq
    simp [parse, parse_char, plain_atom]
  · have hc : c ∉ special_chars := by
      rcases h with h1 | h1
      · exact absurd h1 hq
      · exact h1
    have hne : c ≠ '\\' ∧ c ≠ '^' ∧ c ≠ '$' ∧ c ≠ '.' ∧ c ≠ '|' ∧ c ≠ '*' ∧ c ≠ '+' ∧
        c ≠ '(' ∧ c ≠ ')' ∧ c ≠ '[' ∧ c ≠ ']' ∧ c ≠ '{' ∧ c ≠ '}' := by
      simp only [special_chars, List.mem_cons, List.mem_singleton, not_or] at hc
      tauto
    obtain ⟨h1, h2, h3, h4, h5, h6, h7, h8, h9, h10, h11, h12, h13⟩ := hne
    simp [parse, parse_char, plain_atom, regex_replace_special, hc, hq,
      h1, h2, h3, h4, h5, h6, h7, h8, h9, h10, h11, h12, h13]

theorem parse_plain (mask : List Char) (h : plain_mask mask) (cur : Frame) :
    parse (regex_pattern mask) { stack := [], cur := cur, esc := false } =
      Result.ok (Frame.close { cur with terms := (mask.map plain_atom).reverse ++ cur.terms }) := by
  induction mask generalizing cur with
  | nil => simp [regex_pattern, parse]
  | cons c rest ih =>
    have hrest : plain_mask rest := fun d hd => h d (List.mem_cons_of_mem c hd)
    rw [regex_pattern, parse_append_plain c _ cur (h c (List.mem_cons_self c rest)), ih hrest]
    simp [Frame.push]

theorem prepare_pattern_plain (mask : List Char) (h : plain_mask mask) :
    prepare_pattern mask = Result.ok (mk_seq (mask.map plain_atom).reverse) := by
  unfold prepare_pattern std_regex
  rw [parse_plain mask h]
  simp [Frame.close]

/-! ## Lemmas on matching a compiled plain mask -/

theorem mk_seq_reverse (l : List Regex) :
    mk_seq l.reverse = l.foldr Regex.seq Regex.eps := by
  unfold mk_seq
  rw [List.foldl_reverse]

theorem ends_plain (mask : List Char) (ln : Line) (p : Nat) :
    ends ln ((mask.map plain_atom).foldr Regex.seq Regex.eps) p =
      if plain_match mask (ln.drop p) then [p + mask.length] else [] := by
  induction mask generalizing p with
  | nil => simp [ends, plain_match]
  | cons c rest ih =>
    simp only [List.map_cons, List.foldr_cons, ends, List.length_cons]
    cases hd : ln.drop p with
    | nil =>
      have hlen : ln.length ≤ p := List.drop_eq_nil_iff.mp hd
      have hget : ln[p]? = none := List.getElem?_eq_none hlen
      by_cases hq : c = '?' <;> simp [plain_atom, hq, ends, hget, plain_match]
    | cons d tl =>
      have hlt : p < ln.length := by
        by_contra hcon
        have : ln.drop p = [] := List.drop_eq_nil_iff.mpr (by omega)
        rw [this] at hd
        exact List.noConfusion hd
      have h1 := List.drop_eq_getElem_cons hlt
      rw [hd] at h1
      have hget : ln[p]? = some d := by
        rw [List.getElem?_eq_getElem hlt, (List.cons.inj h1).1]
      have htl : ln.drop (p + 1) = tl := ((List.cons.inj h1).2).symm
      by_cases hq : c = '?'
      · subst hq
        by_cases hacc : dot_accepts d = true
        · have hd2 : ¬ (d = '\n' ∨ d = '\r') := by
            simpa [dot_accepts] using hacc
          simp [plain_atom, ends, hget, plain_match, hacc, hd2, ih, htl, Nat.add_assoc,
            Nat.add_comm 1]
        · have hd2 : d = '\n' ∨ d = '\r' := by
            by_contra hcon
            apply hacc
            simpa [dot_accepts] using hcon
          simp [plain_atom, ends, hget, plain_match, hacc, hd2]
      · by_cases hdc : d = c
        · subst hdc
          simp [plain_atom, hq, ends, hget, plain_match, ih, htl, Nat.add_assoc, Nat.add_comm 1]
        · simp [plain_atom, hq, ends, hget, plain_match, hdc]

theorem plain_match_length (mask text : List Char) (h : plain_match mask text = true) :
    mask.length ≤ text.length := by
  induction mask generalizing text with
  | nil => simp
  | cons c rest ih =>
    cases text with
    | nil => simp [plain_match] at h
    | cons d tl =>
      simp only [plain_match, Bool.and_eq_true] at h
      have := ih tl h.2
      simp only [List.length_cons]
      omega

theorem plain_match_eq_cells_match (mask text : List Char) (h : no_terminator text) :
    plain_match mask text = cells_match (spec_compile mask) text := by
  induction mask generalizing text with
  | nil => simp [plain_match, spec_compile, cells_match]
  | cons c rest ih =>
    cases text with
    | nil => simp [plain_match, spec_compile, cells_match]
    | cons d tl =>
      have htl : no_terminator tl := fun x hx => h x (List.mem_cons_of_mem d hx)
      have hd := h d (List.mem_cons_self d tl)
      have ih2 := ih tl htl
      unfold spec_compile at ih2
      by_cases hq : c = '?'
      · subst hq
        simp [plain_match, spec_compile, cells_match, dot_accepts, hd.1, hd.2, ih2]
      · by_cases hdc : d = c
        · subst hdc
          simp [plain_match, spec_compile, cells_match, hq, ih2]
        · have hcd : ¬ c = d := fun e => hdc e.symm
          simp [plain_match, spec_compile, cells_match, hq, hdc, hcd]

theorem match_at_plain (mask : List Char) (ln : Line) (p : Nat) :
    match_at (mk_seq (mask.map plain_atom).reverse) ln false p =
      if plain_match mask (ln.drop p) then some (p + mask.length) else none := by
  unfold match_at
  rw [mk_seq_reverse, ends_plain]
  by_cases h : plain_match mask (ln.drop p) = true <;> simp [h]

theorem regex_search_hit (re : Regex) (ln : Line) (s e : Nat) (hs : s ≤ ln.length)
    (h : match_at re ln false s = some e) : regex_search re ln s = some (s, e) := by
  unfold regex_search
  have hk : ln.length + 1 - s = (ln.length - s) + 1 := by omega
  rw [hk, List.range'_succ]
  simp [List.findSome?, h]

theorem regex_search_skip (re : Regex) (ln : Line) (s : Nat) (hs : s ≤ ln.length)
    (h : match_at re ln false s = none) : regex_search re ln s = regex_search re ln (s + 1) := by
  unfold regex_search
  have hk : ln.length + 1 - s = (ln.length + 1 - (s + 1)) + 1 := by omega
  rw [hk, List.range'_succ]
  simp [List.findSome?, h]

theorem regex_search_none (re : Regex) (ln : Line) (s : Nat)
    (h : ∀ p, s ≤ p → match_at re ln false p = none) : regex_search re ln s = none := by
  unfold regex_search
  rw [List.findSome?_eq_none_iff]
  intro p hp
  have hp2 : s ≤ p := (List.mem_range'_1.mp hp).1
  simp [h p hp2]

theorem plain_match_none_of_short (mask : List Char) (ln : Line) (s p : Nat)
    (hL : 1 ≤ mask.length) (hshort : ln.length < s + mask.length) (hp : s ≤ p) :
    plain_match mask (ln.drop p) = false := by
  cases hm : plain_match mask (ln.drop p) with
  | false => rfl
  | true =>
    have h1 := plain_match_length mask (ln.drop p) hm
    rw [List.length_drop] at h1
    omega

theorem iterator_done (mask : List Char) (ln : Line) (s fuel : Nat)
    (hL : 1 ≤ mask.length) (hshort : ln.length < s + mask.length) :
    sregex_iterator_from (mk_seq (mask.map plain_atom).reverse) ln fuel s false = [] := by
  cases fuel with
  | zero => rfl
  | succ f =>
    have hnone : regex_search (mk_seq (mask.map plain_atom).reverse) ln s = none := by
      apply regex_search_none
      intro p hp
      rw [match_at_plain, plain_match_none_of_short mask ln s p hL hshort hp]
      simp
    simp [sregex_iterator_from, hnone]

theorem iterator_skip (re : Regex) (ln : Line) (s f : Nat) (hs : s ≤ ln.length)
    (h : match_at re ln false s = none) :
    sregex_iterator_from re ln (f + 1) s false = sregex_iterator_from re ln (f + 1) (s + 1) false := by
  simp only [sregex_iterator_from, regex_search_skip re ln s hs h]
  rfl

theorem no_terminator_drop (ln : Line) (p : Nat) (h : no_terminator ln) :
    no_terminator (ln.drop p) :=
  fun d hd => h d (List.mem_of_mem_drop hd)

theorem iterator_plain_from (mask : List Char) (ln : Line) (hL : 1 ≤ mask.length)
    (hln : no_terminator ln) (n : Nat) :
    ∀ s fuel1 fuel2, ln.length + 1 - s ≤ n → n ≤ fuel1 → n ≤ fuel2 →
      sregex_iterator_from (mk_seq (mask.map plain_atom).reverse) ln fuel1 s false =
        (spec_scan_from (spec_compile mask) ln fuel2 s).map
          (fun m => (m.1 - 1, m.1 - 1 + mask.length)) := by
  have hcl : (spec_compile mask).length = mask.length := by simp [spec_compile]
  induction n with
  | zero =>
    intro s fuel1 fuel2 hs _ _
    have hshort : ln.length < s + mask.length := by omega
    rw [iterator_done mask ln s fuel1 hL hshort]
    cases fuel2 with
    | zero => rfl
    | succ f2 =>
      have hno : ¬ (s + mask.length ≤ ln.length) := by omega
      simp [spec_scan_from, hcl, hno]
  | succ n ih =>
    intro s fuel1 fuel2 hs h1 h2
    by_cases hfit : s + mask.length ≤ ln.length
    · obtain ⟨f1, rfl⟩ : ∃ f1, fuel1 = f1 + 1 := ⟨fuel1 - 1, by omega⟩
      obtain ⟨f2, rfl⟩ : ∃ f2, fuel2 = f2 + 1 := ⟨fuel2 - 1, by omega⟩
      have hsl : s ≤ ln.length := by omega
      have hpm := plain_match_eq_cells_match mask (ln.drop s) (no_terminator_drop ln s hln)
      by_cases hm : plain_match mask (ln.drop s) = true
      · have hcm : cells_match (spec_compile mask) (ln.drop s) = true := by rw [← hpm]; exact hm
        have hat : match_at (mk_seq (mask.map plain_atom).reverse) ln false s =
            some (s + mask.length) := by
          rw [match_at_plain, hm]
          simp
        have hrs := regex_search_hit _ ln s _ hsl hat
        have hne : ¬ (s + mask.length = s) := by omega
        have hrec := ih (s + mask.length) f1 f2 (by omega) (by omega) (by omega)
        simp [sregex_iterator_from, hrs, hne, spec_scan_from, hcl, hfit, hcm, hrec]
      · have hcm : cells_match (spec_compile mask) (ln.drop s) = false := by
          rw [← hpm]
          simpa using hm
        have hat : match_at (mk_seq (mask.map plain_atom).reverse) ln false s = none := by
          rw [match_at_plain]
          simp [hm]
        rw [iterator_skip _ ln s f1 hsl hat]
        have hrec := ih (s + 1) (f1 + 1) f2 (by omega) (by omega) (by omega)
        rw [hrec]
        simp [spec_scan_from, hcl, hfit, hcm]
    · have hshort : ln.length < s + mask.length := by omega
      rw [iterator_done mask ln s fuel1 hL hshort]
      cases fuel2 with
      | zero => rfl
      | succ f2 => simp [spec_scan_from, hcl, hfit]

theorem spec_scan_from_shape (cells : List Cell) (ln : Line) (fuel s : Nat) :
    ∀ m ∈ spec_scan_from cells ln fuel s,
      1 ≤ m.1 ∧ m.2 = (ln.drop (m.1 - 1)).take cells.length := by
  induction fuel generalizing s with
  | zero => simp [spec_scan_from]
  | succ f ih =>
    intro m hm
    unfold spec_scan_from at hm
    by_cases hfit : s + cells.length ≤ ln.length
    · by_cases hc : cells_match cells (ln.drop s) = true
      · simp only [hfit, hc, if_true, List.mem_cons] at hm
        rcases hm with rfl | hm
        · simp
        · exact ih _ m hm
      · simp only [hfit, hc, if_true, if_false] at hm
        exact ih _ m hm
    · simp [hfit] at hm

/-- For a plain mask of length at least one and a line without line feed and
carriage return, the records the code builds for the line are those of the
scanner of section 4.4. -/
theorem line_results_plain (mask : List Char) (ln : Line) (i : Nat) (hL : 1 ≤ mask.length)
    (hln : no_terminator ln) :
    line_results (mk_seq (mask.map plain_atom).reverse) ln i =
      (spec_scan (spec_compile mask) ln).map
        (fun m => { line_number := i + 1, position := m.1, match_ := m.2 }) := by
  unfold line_results sregex_iterator spec_scan
  rw [iterator_plain_from mask ln hL hln (ln.length + 1) 0 (2 * ln.length + 3) (ln.length + 1)
    (by omega) (by omega) (by omega)]
  rw [List.map_map]
  apply List.map_congr_left
  intro m hm
  have hshape := spec_scan_from_shape (spec_compile mask) ln _ _ m hm
  have hcl : (spec_compile mask).length = mask.length := by simp [spec_compile]
  rw [hcl] at hshape
  obtain ⟨h1, h2⟩ := hshape
  simp only [Function.comp]
  have e1 : m.1 - 1 + 1 = m.1 := by omega
  have e2 : m.1 - 1 + mask.length - (m.1 - 1) = mask.length := by omega
  rw [e1, e2, ← h2]

/-- For a plain mask of length at least one and lines without line feed and
carriage return, the buffer of a thread holds, line after line, the records of
the scanner of section 4.4. -/
theorem search_in_lines_plain (mask : List Char) (lines : List Line) (a b : Nat)
    (hL : 1 ≤ mask.length) (hlines : ∀ l ∈ lines, no_terminator l) :
    search_in_lines (mk_seq (mask.map plain_atom).reverse) lines a b =
      (List.range' a (b - a)).flatMap (fun i =>
        (spec_scan (spec_compile mask) (lines.getD i [])).map
          (fun m => { line_number := i + 1, position := m.1, match_ := m.2 })) := by
  unfold search_in_lines
  congr 1
  funext i
  apply line_results_plain mask _ i hL
  rcases Nat.lt_or_ge i lines.length with hi | hi
  · rw [List.getD_eq_getElem _ _ hi]
    exact hlines _ (List.getElem_mem hi)
  · rw [List.getD_eq_default _ _ hi]
    intro d hd
    simp at hd

/-- The lines `read_file` stores hold no line feed. -/
theorem getlines_no_newline (content : List Char) (cur : Line) (hcur : '\n' ∉ cur) :
    ∀ l ∈ getlines content cur, '\n' ∉ l := by
  induction content generalizing cur with
  | nil =>
    intro l hl
    unfold getlines at hl
    by_cases hc : cur = []
    · simp [hc] at hl
    · simp only [hc, if_false, List.mem_singleton] at hl
      subst hl
      simpa using hcur
  | cons c rest ih =>
    intro l hl
    unfold getlines at hl
    by_cases hc : c = '\n'
    · simp only [hc, if_true, List.mem_cons] at hl
      rcases hl with rfl | hl
      · simpa using hcur
      · exact ih [] (by simp) l hl
    · simp only [hc, if_false] at hl
      refine ih (c :: cur) ?_ l hl
      simp only [List.mem_cons, not_or]
      exact ⟨fun e => hc e.symm, hcur⟩

/-! ## Lemmas on the division of the lines among the threads -/

theorem lines_le_chunks (N W : Nat) (hW : 1 ≤ W) : N ≤ lines_per_thread N W * W := by
  unfold lines_per_thread
  have h := Nat.div_add_mod (N + W - 1) W
  have h2 := Nat.mod_lt (N + W - 1) hW
  have h3 : W * ((N + W - 1) / W) = (N + W - 1) / W * W := Nat.mul_comm _ _
  omega

theorem chunks_le (N W : Nat) : lines_per_thread N W * W ≤ N + W - 1 := by
  unfold lines_per_thread
  exact Nat.div_mul_le_self _ _

theorem lines_per_thread_pos (N W : Nat) (hW : 1 ≤ W) (hN : 0 < N) :
    0 < lines_per_thread N W := by
  have h := lines_le_chunks N W hW
  rcases Nat.eq_zero_or_pos (lines_per_thread N W) with h0 | h0
  · rw [h0] at h
    omega
  · exact h0

/-- Every value computed by the index arithmetic of `search` is bounded by
`N + W - 1`, so no `size_t` operation wraps when that sum is representable. -/
theorem search_arith_no_wrap (N W i : Nat) (hi : i < W) :
    start_line N W i + lines_per_thread N W ≤ N + W - 1 := by
  unfold start_line
  have h1 : (i + 1) * lines_per_thread N W ≤ W * lines_per_thread N W :=
    Nat.mul_le_mul_right _ hi
  have h2 := chunks_le N W
  have h3 : W * lines_per_thread N W = lines_per_thread N W * W := Nat.mul_comm _ _
  have h4 : (i + 1) * lines_per_thread N W = i * lines_per_thread N W + lines_per_thread N W :=
    Nat.succ_mul _ _
  omega

/-! ## Lemmas on matching in general -/

theorem star_iter_ge (f : Nat → List Nat) (fuel p e : Nat) (h : e ∈ star_iter f fuel p) :
    p ≤ e := by
  induction fuel generalizing p with
  | zero =>
    simp only [star_iter, List.mem_singleton] at h
    omega
  | succ n ih =>
    simp only [star_iter, List.mem_append, List.mem_flatMap, List.mem_filter,
      List.mem_singleton, decide_eq_true_eq] at h
    rcases h with ⟨a, ⟨_, hpa⟩, hea⟩ | h
    · have := ih a hea
      omega
    · omega

theorem ends_ge (ln : Line) (R : Regex) (p e : Nat) (h : e ∈ ends ln R p) : p ≤ e := by
  induction R generalizing p e with
  | chr c =>
    simp only [ends] at h
    split at h
    · simp only [List.mem_singleton] at h
      omega
    · simp at h
  | any =>
    simp only [ends] at h
    split at h
    · split at h
      · simp at h
      · simp only [List.mem_singleton] at h
        omega
    · simp at h
  | bol =>
    simp only [ends] at h
    split at h
    · simp only [List.mem_singleton] at h
      omega
    · simp at h
  | eol =>
    simp only [ends] at h
    split at h
    · simp only [List.mem_singleton] at h
      omega
    · simp at h
  | eps =>
    simp only [ends, List.mem_singleton] at h
    omega
  | seq a b iha ihb =>
    simp only [ends, List.mem_flatMap] at h
    obtain ⟨m, hm, he⟩ := h
    have h1 := iha p m hm
    have h2 := ihb m e he
    omega
  | alt a b iha ihb =>
    simp only [ends, List.mem_append] at h
    rcases h with h | h
    · exact iha p e h
    · exact ihb p e h
  | star a _ =>
    simp only [ends] at h
    exact star_iter_ge _ _ _ _ h
  | plus a iha =>
    simp only [ends, List.mem_flatMap] at h
    obtain ⟨m, hm, he⟩ := h
    have h1 := iha p m hm
    have h2 := star_iter_ge _ _ _ _ he
    omega
  | group a iha =>
    simp only [ends] at h
    exact iha p e h

theorem star_iter_le (f : Nat → List Nat) (bound : Nat)
    (hf : ∀ p e, p ≤ bound → e ∈ f p → e ≤ bound) (fuel p e : Nat) (hp : p ≤ bound)
    (h : e ∈ star_iter f fuel p) : e ≤ bound := by
  induction fuel generalizing p with
  | zero =>
    simp only [star_iter, List.mem_singleton] at h
    omega
  | succ n ih =>
    simp only [star_iter, List.mem_append, List.mem_flatMap, List.mem_filter,
      List.mem_singleton, decide_eq_true_eq] at h
    rcases h with ⟨a, ⟨ha, _⟩, hea⟩ | h
    · exact ih a (hf p a hp ha) hea
    · omega

/-- A match never ends behind the end of the line. -/
theorem ends_le (ln : Line) (R : Regex) (p e : Nat) (hp : p ≤ ln.length)
    (h : e ∈ ends ln R p) : e ≤ ln.length := by
  induction R generalizing p e with
  | chr c =>
    simp only [ends] at h
    split at h
    · rename_i hget
      have hlt : p < ln.length := by
        by_contra hcon
        rw [List.get?_eq_none.mpr (by omega)] at hget
        exact Option.noConfusion hget
      simp only [List.mem_singleton] at h
      omega
    · simp at h
  | any =>
    simp only [ends] at h
    split at h
    · rename_i d hget
      have hlt : p < ln.length := by
        by_contra hcon
        rw [List.get?_eq_none.mpr (by omega)] at hget
        exact Option.noConfusion hget
      split at h
      · simp at h
      · simp only [List.mem_singleton] at h
        omega
    · simp at h
  | bol =>
    simp only [ends] at h
    split at h
    · simp only [List.mem_singleton] at h
      omega
    · simp at h
  | eol =>
    simp only [ends] at h
    split at h
    · simp only [List.mem_singleton] at h
      omega
    · simp at h
  | eps =>
    simp only [ends, List.mem_singleton] at h
    omega
  | seq a b iha ihb =>
    simp only [ends, List.mem_flatMap] at h
    obtain ⟨m, hm, he⟩ := h
    exact ihb m e (iha p m hp hm) he
  | alt a b iha ihb =>
    simp only [ends, List.mem_append] at h
    rcases h with h | h
    · exact iha p e hp h
    · exact ihb p e hp h
  | star a iha =>
    simp only [ends] at h
    exact star_iter_le _ ln.length (fun q x hq hx => iha q x hq hx) _ p e hp h
  | plus a iha =>
    simp only [ends, List.mem_flatMap] at h
    obtain ⟨m, hm, he⟩ := h
    exact star_iter_le _ ln.length (fun q x hq hx => iha q x hq hx) _ m e (iha p m hp hm) he
  | group a iha =>
    simp only [ends] at h
    exact iha p e hp h

theorem ends_seq_eq (ln : Line) (a b : Regex) (p : Nat) :
    ends ln (Regex.seq a b) p = (ends ln a p).flatMap (ends ln b) := by
  simp only [ends]

theorem match_at_mem (re : Regex) (ln : Line) (b : Bool) (p e : Nat)
    (h : match_at re ln b p = some e) : e ∈ ends ln re p ∧ (b = true → p < e) := by
  unfold match_at at h
  have hmem := List.mem_of_mem_head? h
  rw [List.mem_filter] at hmem
  refine ⟨hmem.1, ?_⟩
  intro hb
  subst hb
  simpa using hmem.2

theorem match_at_ge (re : Regex) (ln : Line) (b : Bool) (p e : Nat)
    (h : match_at re ln b p = some e) : p ≤ e :=
  ends_ge ln re p e (match_at_mem re ln b p e h).1

theorem regex_search_some (re : Regex) (ln : Line) (s p e : Nat)
    (h : regex_search re ln s = some (p, e)) :
    s ≤ p ∧ p ≤ ln.length ∧ match_at re ln false p = some e := by
  unfold regex_search at h
  obtain ⟨a, ha, hfa⟩ := List.exists_of_findSome?_eq_some h
  have hr := List.mem_range'_1.mp ha
  cases hm : match_at re ln false a with
  | none => simp [hm] at hfa
  | some e2 =>
    simp only [hm, Option.map_some', Option.some.injEq, Prod.mk.injEq] at hfa
    obtain ⟨h1, h2⟩ := hfa
    subst h1
    subst h2
    refine ⟨hr.1, by omega, hm⟩

/-- Enough rounds: from a start inside the line a repetition needs at most
`length - p` rounds, so any larger budget yields the same list. -/
theorem star_iter_fuel (f : Nat → List Nat) (bound : Nat)
    (hf : ∀ p e, p ≤ bound → e ∈ f p → e ≤ bound) (k : Nat) :
    ∀ (fuel fuel2 p : Nat), p ≤ bound → bound - p ≤ k → k ≤ fuel → k ≤ fuel2 →
      star_iter f fuel p = star_iter f fuel2 p := by
  induction k with
  | zero =>
    intro fuel fuel2 p hp hk _ _
    have hnone : (f p).filter (fun e => decide (p < e)) = [] := by
      rw [List.filter_eq_nil_iff]
      intro a ha
      have := hf p a hp ha
      simp only [decide_eq_true_eq]
      omega
    have hone : ∀ n, star_iter f n p = [p] := by
      intro n
      cases n with
      | zero => rfl
      | succ m => simp [star_iter, hnone]
    rw [hone, hone]
  | succ k ih =>
    intro fuel fuel2 p hp hk h1 h2
    obtain ⟨f1, rfl⟩ : ∃ f1, fuel = f1 + 1 := ⟨fuel - 1, by omega⟩
    obtain ⟨f2, rfl⟩ : ∃ f2, fuel2 = f2 + 1 := ⟨fuel2 - 1, by omega⟩
    simp only [star_iter]
    congr 1
    apply List.flatMap_congr
    intro a ha
    rw [List.mem_filter] at ha
    have hlt : p < a := by simpa using ha.2
    have hle := hf p a hp ha.1
    exact ih f1 f2 a hle (by omega) (by omega) (by omega)

/-- Enough steps: with a budget of at least `2 * (length - s) + 1` steps (one
less after an empty match) the traversal reaches the end iterator, and the
list it has produced does not depend on the budget. -/
theorem iterator_run_eq (re : Regex) (ln : Line) (n : Nat) :
    ∀ (s : Nat) (flag : Bool) (fuel fuel2 : Nat),
      2 * (ln.length - s) + (if flag then 0 else 1) ≤ n →
      (flag = true → s < ln.length) → n ≤ fuel → n ≤ fuel2 →
      sregex_iterator_run re ln fuel s flag = some (sregex_iterator_from re ln fuel2 s flag) := by
  induction n with
  | zero =>
    intro s flag fuel fuel2 hmu hflag _ _
    cases flag with
    | false => simp at hmu
    | true =>
      have := hflag rfl
      simp at hmu
      omega
  | succ n ih =>
    intro s flag fuel fuel2 hmu hflag hf1 hf2
    obtain ⟨f1, rfl⟩ : ∃ f1, fuel = f1 + 1 := ⟨fuel - 1, by omega⟩
    obtain ⟨f2, rfl⟩ : ∃ f2, fuel2 = f2 + 1 := ⟨fuel2 - 1, by omega⟩
    cases flag with
    | true =>
      have hs := hflag rfl
      simp only [if_true, Nat.add_zero] at hmu
      cases hm : match_at re ln true s with
      | none =>
        have hrec := ih (s + 1) false f1 f2 (by simp only [Bool.false_eq_true, if_false]; omega)
          (by simp) (by omega) (by omega)
        simp [sregex_iterator_run, sregex_iterator_from, hm, hrec]
      | some e =>
        have hlt : s < e := (match_at_mem re ln true s e hm).2 rfl
        have hrec := ih e false f1 f2 (by simp only [Bool.false_eq_true, if_false]; omega)
          (by simp) (by omega) (by omega)
        simp [sregex_iterator_run, sregex_iterator_from, hm, hrec]
    | false =>
      simp only [Bool.false_eq_true, if_false] at hmu
      cases hr : regex_search re ln s with
      | none => simp [sregex_iterator_run, sregex_iterator_from, hr]
      | some pe =>
        obtain ⟨p, e⟩ := pe
        obtain ⟨hsp, hpl, hm⟩ := regex_search_some re ln s p e hr
        have hpe := match_at_ge re ln false p e hm
        have hel2 := ends_le ln re p e hpl (match_at_mem re ln false p e hm).1
        by_cases hep : e = p
        · subst hep
          by_cases hel : e = ln.length
          · simp [sregex_iterator_run, sregex_iterator_from, hr, hel]
          · have hrec := ih e true f1 f2 (by simp only [if_true]; omega)
              (by intro _; omega) (by omega) (by omega)
            simp [sregex_iterator_run, sregex_iterator_from, hr, hel, hrec]
        · have hrec := ih e false f1 f2 (by simp only [Bool.false_eq_true, if_false]; omega)
            (by simp) (by omega) (by omega)
          simp [sregex_iterator_run, sregex_iterator_from, hr, hep, hrec]

theorem iterator_eps (ln : Line) (k : Nat) :
    ∀ (s fuel : Nat), s + k = ln.length → 2 * k + 1 ≤ fuel →
      sregex_iterator_from Regex.eps ln fuel s false =
        (List.range' s (k + 1)).map (fun p => (p, p)) := by
  induction k with
  | zero =>
    intro s fuel hs hf
    obtain ⟨f1, rfl⟩ : ∃ f1, fuel = f1 + 1 := ⟨fuel - 1, by omega⟩
    have hm : match_at Regex.eps ln false s = some s := by simp [match_at, ends]
    have hr := regex_search_hit Regex.eps ln s s (by omega) hm
    have hsl : s = ln.length := by omega
    simp only [sregex_iterator_from, hr, Bool.false_eq_true, if_false, if_true]
    simp [hsl]
  | succ k ih =>
    intro s fuel hs hf
    obtain ⟨f1, rfl⟩ : ∃ f1, fuel = f1 + 1 + 1 := ⟨fuel - 2, by omega⟩
    have hm : match_at Regex.eps ln false s = some s := by simp [match_at, ends]
    have hm2 : match_at Regex.eps ln true s = none := by simp [match_at, ends]
    have hr := regex_search_hit Regex.eps ln s s (by omega) hm
    have hsl : ¬ s = ln.length := by omega
    have hrec := ih (s + 1) f1 (by omega) (by omega)
    rw [List.range'_succ, List.map_cons, ← hrec]
    simp only [sregex_iterator_from, hr, Bool.false_eq_true, if_false, if_true, hsl, hm2]

/-! ## Lemmas on expressions that hold a character -/

theorem consuming_chr (c : Char) : Consuming (Regex.chr c) := by
  intro ln p e h
  simp only [ends] at h
  split at h
  · simp only [List.mem_singleton] at h
    omega
  · simp at h

theorem consuming_any : Consuming Regex.any := by
  intro ln p e h
  simp only [ends] at h
  split at h
  · split at h
    · simp at h
    · simp only [List.mem_singleton] at h
      omega
  · simp at h

theorem consuming_plus (a : Regex) (ha : Consuming a) : Consuming (Regex.plus a) := by
  intro ln p e h
  simp only [ends, List.mem_flatMap] at h
  obtain ⟨m, hm, he⟩ := h
  have h1 := ha ln p m hm
  have h2 := star_iter_ge _ _ _ _ he
  omega

theorem consuming_seq_left (a b : Regex) (ha : Consuming a) : Consuming (Regex.seq a b) := by
  intro ln p e h
  simp only [ends, List.mem_flatMap] at h
  obtain ⟨m, hm, he⟩ := h
  have h1 := ha ln p m hm
  have h2 := ends_ge ln b m e he
  omega

theorem consuming_seq_right (a b : Regex) (hb : Consuming b) : Consuming (Regex.seq a b) := by
  intro ln p e h
  simp only [ends, List.mem_flatMap] at h
  obtain ⟨m, hm, he⟩ := h
  have h1 := ends_ge ln a p m hm
  have h2 := hb ln m e he
  omega

theorem consuming_alt (a b : Regex) (ha : Consuming a) (hb : Consuming b) :
    Consuming (Regex.alt a b) := by
  intro ln p e h
  simp only [ends, List.mem_append] at h
  rcases h with h | h
  · exact ha ln p e h
  · exact hb ln p e h

theorem consuming_foldl_seq (terms : List Regex) (acc : Regex)
    (h : Consuming acc ∨ ∃ t ∈ terms, Consuming t) :
    Consuming (terms.foldl (fun acc t => Regex.seq t acc) acc) := by
  induction terms generalizing acc with
  | nil =>
    rcases h with h | ⟨t, ht, _⟩
    · exact h
    · simp at ht
  | cons x rest ih =>
    simp only [List.foldl_cons]
    apply ih
    rcases h with h | ⟨t, ht, hc⟩
    · exact Or.inl (consuming_seq_right x acc h)
    · rcases List.mem_cons.mp ht with rfl | ht2
      · exact Or.inl (consuming_seq_left t acc hc)
      · exact Or.inr ⟨t, ht2, hc⟩

theorem consuming_mk_seq (terms : List Regex) (h : ∃ t ∈ terms, Consuming t) :
    Consuming (mk_seq terms) :=
  consuming_foldl_seq terms Regex.eps (Or.inr h)

theorem consuming_foldl_alt (alts : List Regex) (acc : Regex) (hacc : Consuming acc)
    (h : ∀ a ∈ alts, Consuming a) :
    Consuming (alts.foldl (fun acc a => Regex.alt a acc) acc) := by
  induction alts generalizing acc with
  | nil => exact hacc
  | cons x rest ih =>
    simp only [List.foldl_cons]
    apply ih
    · exact consuming_alt x acc (h x (List.mem_cons_self x rest)) hacc
    · intro a ha
      exact h a (List.mem_cons_of_mem x ha)

theorem consuming_close (f : Frame) (h : frame_consuming f) : Consuming f.close :=
  consuming_foldl_alt f.alts _ (consuming_mk_seq f.terms h.2) h.1

/-! ## Lemmas on expressions whose empty match is their only match -/

theorem match_at_false (re : Regex) (ln : Line) (p : Nat) :
    match_at re ln false p = (ends ln re p).head? := by
  simp [match_at]

theorem match_at_true_none (re : Regex) (ln : Line) (p : Nat)
    (h : ∀ e ∈ ends ln re p, e = p) : match_at re ln true p = none := by
  unfold match_at
  rw [List.head?_eq_none_iff, List.filter_eq_nil_iff]
  intro e he
  have := h e he
  simp only [Bool.not_true, Bool.false_or, decide_eq_true_eq]
  omega

theorem tight_of_consuming (R : Regex) (h : Consuming R) : Tight R := by
  intro ln p hm
  have := h ln p p (match_at_mem R ln false p p hm).1
  omega

theorem tight_alt (a b : Regex) (ha : Consuming a) (hb : Tight b) : Tight (Regex.alt a b) := by
  intro ln p hm
  rw [match_at_false] at hm
  have hnil : ends ln a p = [] := by
    cases hea : ends ln a p with
    | nil => rfl
    | cons x rest =>
      simp only [ends, hea, List.cons_append, List.head?_cons, Option.some.injEq] at hm
      have := ha ln p x (by rw [hea]; exact List.mem_cons_self x rest)
      omega
  have heq : ends ln (Regex.alt a b) p = ends ln b p := by simp [ends, hnil]
  rw [heq, ← match_at_false] at hm
  have := hb ln p hm
  unfold match_at at this ⊢
  rw [heq]
  exact this

theorem tight_foldl_alt (alts : List Regex) (acc : Regex) (hacc : Tight acc)
    (h : ∀ a ∈ alts, Consuming a) :
    Tight (alts.foldl (fun acc a => Regex.alt a acc) acc) := by
  induction alts generalizing acc with
  | nil => exact hacc
  | cons x rest ih =>
    simp only [List.foldl_cons]
    apply ih
    · exact tight_alt x acc (h x (List.mem_cons_self x rest)) hacc
    · intro a ha
      exact h a (List.mem_cons_of_mem x ha)

theorem star_iter_ne_nil (f : Nat → List Nat) (fuel p : Nat) : star_iter f fuel p ≠ [] := by
  cases fuel with
  | zero => simp [star_iter]
  | succ n => simp [star_iter]

theorem ends_star_chr_miss (c : Char) (ln : Line) (p : Nat) (h : ln.get? p ≠ some c) :
    ends ln (Regex.star (Regex.chr c)) p = [p] := by
  have hstar : ends ln (Regex.star (Regex.chr c)) p =
      star_iter (ends ln (Regex.chr c)) ln.length p := rfl
  have hf : ends ln (Regex.chr c) p = [] := by
    simp only [ends]
    rw [if_neg h]
  rw [hstar]
  cases ln.length with
  | zero => rfl
  | succ n =>
    simp only [star_iter]
    rw [hf]
    rfl

theorem ends_star_chr_hit (c : Char) (ln : Line) (p : Nat) (h : ln.get? p = some c) :
    ∃ x rest, ends ln (Regex.star (Regex.chr c)) p = x :: rest ∧ p < x := by
  have hlt : p < ln.length := by
    by_contra hcon
    rw [List.get?_eq_none.mpr (by omega)] at h
    exact Option.noConfusion h
  have hstar : ends ln (Regex.star (Regex.chr c)) p =
      star_iter (ends ln (Regex.chr c)) ln.length p := rfl
  have hf : ends ln (Regex.chr c) p = [p + 1] := by
    simp only [ends]
    rw [if_pos h]
  obtain ⟨n, hn⟩ : ∃ n, ln.length = n + 1 := ⟨ln.length - 1, by omega⟩
  rw [hstar, hn]
  simp only [star_iter]
  rw [hf]
  have hfil : List.filter (fun e => decide (p < e)) [p + 1] = [p + 1] := by simp
  rw [hfil, List.flatMap_cons, List.flatMap_nil, List.append_nil]
  cases hs : star_iter (ends ln (Regex.chr c)) n (p + 1) with
  | nil => exact absurd hs (star_iter_ne_nil _ _ _)
  | cons x rest =>
    refine ⟨x, rest ++ [p], rfl, ?_⟩
    have := star_iter_ge _ _ _ x (by rw [hs]; exact List.mem_cons_self x rest)
    omega

/-- A sequence of repetitions of one character: it always matches; where the
line does not continue with that character the only match is empty, and where
it does the reported match is not empty (if the sequence has a term). -/
theorem ends_starry (c : Char) (ts : List Regex)
    (hts : ∀ t ∈ ts, t = Regex.star (Regex.chr c)) (ln : Line) (p : Nat) :
    ends ln (ts.foldr Regex.seq Regex.eps) p ≠ [] ∧
    (ln.get? p ≠ some c → ∀ e ∈ ends ln (ts.foldr Regex.seq Regex.eps) p, e = p) ∧
    (ln.get? p = some c → ts ≠ [] →
      ∃ x rest, ends ln (ts.foldr Regex.seq Regex.eps) p = x :: rest ∧ p < x) := by
  induction ts generalizing p with
  | nil => simp [ends]
  | cons t rest ih =>
    have ht : t = Regex.star (Regex.chr c) := hts t (List.mem_cons_self t rest)
    have hrest : ∀ u ∈ rest, u = Regex.star (Regex.chr c) :=
      fun u hu => hts u (List.mem_cons_of_mem t hu)
    subst ht
    simp only [List.foldr_cons, ends_seq_eq]
    by_cases hget : ln.get? p = some c
    · obtain ⟨x, tl, hx, hpx⟩ := ends_star_chr_hit c ln p hget
      obtain ⟨hne, _, _⟩ := ih hrest x
      rw [hx, List.flatMap_cons]
      cases hex : ends ln (rest.foldr Regex.seq Regex.eps) x with
      | nil => exact absurd hex hne
      | cons y ys =>
        have hy := ends_ge ln _ x y (by rw [hex]; exact List.mem_cons_self y ys)
        refine ⟨by simp, fun hcon => absurd hget hcon, fun _ _ => ⟨y, _, rfl, by omega⟩⟩
    · obtain ⟨hne, hall, _⟩ := ih hrest p
      rw [ends_star_chr_miss c ln p hget]
      simp only [List.flatMap_cons, List.flatMap_nil, List.append_nil]
      exact ⟨hne, fun _ => hall hget, fun hcon => absurd hcon hget⟩

theorem tight_starry (c : Char) (terms : List Regex)
    (h : ∀ t ∈ terms, t = Regex.star (Regex.chr c)) : Tight (mk_seq terms) := by
  intro ln p hm
  have hrev : mk_seq terms = terms.reverse.foldr Regex.seq Regex.eps := by
    rw [← mk_seq_reverse, List.reverse_reverse]
  have hts : ∀ t ∈ terms.reverse, t = Regex.star (Regex.chr c) :=
    fun t ht => h t (List.mem_reverse.mp ht)
  obtain ⟨_, hmiss, hhit⟩ := ends_starry c terms.reverse hts ln p
  rw [match_at_false, hrev] at hm
  apply match_at_true_none
  rw [hrev]
  by_cases hget : ln.get? p = some c
  · by_cases hnil : terms.reverse = []
    · rw [hnil]
      simp [ends]
    · obtain ⟨x, rest, hx, hpx⟩ := hhit hget hnil
      rw [hx] at hm
      simp only [List.head?_cons, Option.some.injEq] at hm
      omega
  · exact hmiss hget

theorem tight_close (f : Frame) (h : frame_open f) : Tight f.close := by
  unfold Frame.close
  apply tight_foldl_alt _ _ _ h.1
  rcases h.2 with hc | hs
  · exact tight_of_consuming _ (consuming_mk_seq f.terms hc)
  · exact tight_starry '\\' f.terms hs

/-! ## Lemmas on the expressions `prepare_pattern` can build -/

theorem inv_cons_consuming (stack : List Frame) (alts terms : List Regex) (e e2 : Bool)
    (t : Regex) (hinv : parse_inv { stack := stack, cur := { alts := alts, terms := terms }, esc := e })
    (ht : Consuming t) :
    parse_inv { stack := stack, cur := { alts := alts, terms := t :: terms }, esc := e2 } :=
  ⟨hinv.1, hinv.2.1, Or.inl ⟨t, List.mem_cons_self t terms, ht⟩⟩

theorem inv_cons_after (stack : List Frame) (alts terms : List Regex) (e e2 : Bool)
    (t u : Regex) (hinv : parse_inv { stack := stack, cur := { alts := alts, terms := terms }, esc := e })
    (ht : Consuming t) :
    parse_inv { stack := stack, cur := { alts := alts, terms := u :: t :: terms }, esc := e2 } :=
  ⟨hinv.1, hinv.2.1, Or.inl ⟨t, List.mem_cons_of_mem u (List.mem_cons_self t terms), ht⟩⟩

theorem inv_star (stack : List Frame) (alts terms : List Regex) (e e2 : Bool)
    (hinv : parse_inv { stack := stack, cur := { alts := alts, terms := terms }, esc := e }) :
    parse_inv { stack := stack,
                cur := { alts := alts, terms := Regex.star (Regex.chr '\\') :: terms },
                esc := e2 } := by
  refine ⟨hinv.1, hinv.2.1, ?_⟩
  rcases hinv.2.2 with ⟨t, ht, hc⟩ | hs
  · exact Or.inl ⟨t, List.mem_cons_of_mem _ ht, hc⟩
  · right
    intro t ht
    rcases List.mem_cons.mp ht with rfl | ht2
    · rfl
    · exact hs t ht2

theorem inv_next_alt (stack : List Frame) (alts terms : List Regex) (e e2 : Bool)
    (hinv : parse_inv { stack := stack, cur := { alts := alts, terms := terms }, esc := e }) :
    parse_inv { stack := stack,
                cur := { alts := mk_seq (Regex.chr '\\' :: terms) :: alts, terms := [] },
                esc := e2 } := by
  refine ⟨hinv.1, ?_, Or.inr (fun t ht => by simp at ht)⟩
  intro a ha
  rcases List.mem_cons.mp ha with rfl | ha2
  · exact consuming_mk_seq _ ⟨_, List.mem_cons_self _ _, consuming_chr '\\'⟩
  · exact hinv.2.1 a ha2

theorem inv_open_group (stack : List Frame) (alts terms : List Regex) (e e2 : Bool)
    (hinv : parse_inv { stack := stack, cur := { alts := alts, terms := terms }, esc := e }) :
    parse_inv { stack := { alts := alts, terms := Regex.chr '\\' :: terms } :: stack,
                cur := { alts := [], terms := [] }, esc := e2 } := by
  refine ⟨?_, fun a ha => by simp at ha, Or.inr (fun t ht => by simp at ht)⟩
  intro f hf
  rcases List.mem_cons.mp hf with rfl | hf2
  · exact ⟨hinv.2.1, _, List.mem_cons_self _ _, consuming_chr '\\'⟩
  · exact hinv.1 f hf2

theorem inv_close_group (f : Frame) (fs : List Frame) (cur : Frame) (e e2 : Bool) (t : Regex)
    (hinv : parse_inv { stack := f :: fs, cur := cur, esc := e }) :
    parse_inv { stack := fs, cur := { alts := f.alts, terms := t :: f.terms }, esc := e2 } := by
  have hf := hinv.1 f (List.mem_cons_self f fs)
  refine ⟨fun g hg => hinv.1 g (List.mem_cons_of_mem f hg), hf.1, Or.inl ?_⟩
  obtain ⟨u, hu, hc⟩ := hf.2
  exact ⟨u, List.mem_cons_of_mem t hu, hc⟩

theorem parse_block (ch : Char) (rest : List Char) (st : PState) (re : Regex)
    (hinv : parse_inv st)
    (h : parse ((if ch = '?' then ['.'] else regex_replace_special ch) ++ rest) st =
      Result.ok re) :
    ∃ st2, parse_inv st2 ∧ parse rest st2 = Result.ok re := by
  obtain ⟨stack, ⟨alts, terms⟩, esc⟩ := st
  by_cases hq : ch = '?'
  · subst hq
    cases esc with
    | true =>
      simp [parse, parse_char, special_chars, Frame.push] at h
      exact ⟨_, inv_cons_consuming _ _ _ _ _ _ hinv (consuming_chr _), h⟩
    | false =>
      simp [parse, parse_char, special_chars, Frame.push] at h
      exact ⟨_, inv_cons_consuming _ _ _ _ _ _ hinv consuming_any, h⟩
  · by_cases hs : ch ∈ special_chars
    · simp only [hq, if_false, regex_replace_special, hs, if_true] at h
      simp only [special_chars, List.mem_cons, List.mem_singleton, List.not_mem_nil,
        or_false] at hs
      cases esc with
      | true =>
        rcases hs with rfl | rfl | rfl | rfl | rfl | rfl | rfl | rfl | rfl | rfl | rfl | rfl |
          rfl | rfl <;>
          simp [parse, parse_char, special_chars, Frame.push] at h <;>
          exact ⟨_, inv_cons_after _ _ _ _ _ _ _ hinv (consuming_chr _), h⟩
      | false =>
        rcases hs with rfl | rfl | rfl | rfl | rfl | rfl | rfl | rfl | rfl | rfl | rfl | rfl |
          rfl | rfl
        all_goals simp [parse, parse_char, special_chars, Frame.push, Frame.quantify,
          quantifiable, Frame.next_alt] at h
        · exact ⟨_, inv_cons_consuming _ _ _ _ _ _ hinv (consuming_chr _), h⟩
        · exact ⟨_, inv_cons_after _ _ _ _ _ _ _ hinv (consuming_chr _), h⟩
        · exact ⟨_, inv_cons_after _ _ _ _ _ _ _ hinv (consuming_chr _), h⟩
        · exact ⟨_, inv_cons_after _ _ _ _ _ _ _ hinv (consuming_chr _), h⟩
        · exact ⟨_, inv_next_alt _ _ _ _ _ hinv, h⟩
        · exact ⟨_, inv_star _ _ _ _ _ hinv, h⟩
        · exact ⟨_, inv_cons_consuming _ _ _ _ _ _ hinv
            (consuming_plus _ (consuming_chr _)), h⟩
        · exact ⟨_, inv_open_group _ _ _ _ _ hinv, h⟩
        · cases stack with
          | nil => simp at h
          | cons f fs =>
            simp only at h
            exact ⟨_, inv_close_group f fs _ _ _ _ hinv, h⟩
    · simp only [hq, if_false, regex_replace_special, hs, List.singleton_append] at h
      have hne : ch ≠ '\\' ∧ ch ≠ '^' ∧ ch ≠ '$' ∧ ch ≠ '.' ∧ ch ≠ '|' ∧ ch ≠ '*' ∧ ch ≠ '+' ∧
          ch ≠ '(' ∧ ch ≠ ')' ∧ ch ≠ '[' ∧ ch ≠ ']' ∧ ch ≠ '{' ∧ ch ≠ '}' := by
        simp only [special_chars, List.mem_cons, List.mem_singleton, not_or] at hs
        tauto
      obtain ⟨h1, h2, h3, h4, h5, h6, h7, h8, h9, h10, h11, h12, h13⟩ := hne
      cases esc with
      | true => simp [parse, parse_char, hs] at h
      | false =>
        simp [parse, parse_char, Frame.push, hq,
          h1, h2, h3, h4, h5, h6, h7, h8, h9, h10, h11, h12, h13] at h
        exact ⟨_, inv_cons_consuming _ _ _ _ _ _ hinv (consuming_chr _), h⟩

theorem parse_tight (mask : List Char) (st : PState) (re : Regex) (hinv : parse_inv st)
    (h : parse (regex_pattern mask) st = Result.ok re) : Tight re := by
  induction mask generalizing st with
  | nil =>
    obtain ⟨stack, cur, esc⟩ := st
    simp only [regex_pattern, parse] at h
    cases esc with
    | true => simp at h
    | false =>
      cases stack with
      | cons f fs => simp at h
      | nil =>
        simp only [Bool.false_eq_true, if_false, Result.ok.injEq] at h
        subst h
        exact tight_close cur hinv.2
  | cons ch rest ih =>
    rw [regex_pattern] at h
    obtain ⟨st2, hinv2, h2⟩ := parse_block ch _ st re hinv h
    exact ih st2 hinv2 h2

/-- Every expression `prepare_pattern` builds has no other match where its
reported match is empty. -/
theorem prepare_pattern_tight (mask : List Char) (re : Regex)
    (h : prepare_pattern mask = Result.ok re) : Tight re := by
  unfold prepare_pattern std_regex at h
  refine parse_tight mask _ re ?_ h
  exact ⟨fun f hf => by simp at hf, fun a ha => by simp at ha,
    Or.inr (fun t ht => by simp at ht)⟩

/-- For an expression whose empty match is its only match at that place, the
starts of the successive matches of a line strictly increase. -/
theorem iterator_strict (re : Regex) (ln : Line) (ht : Tight re) (fuel : Nat) :
    ∀ (s : Nat) (flag : Bool), (flag = true → match_at re ln true s = none) →
      (∀ m ∈ sregex_iterator_from re ln fuel s flag, (if flag then s + 1 else s) ≤ m.1) ∧
      (sregex_iterator_from re ln fuel s flag).Pairwise (fun m1 m2 => m1.1 < m2.1) := by
  induction fuel with
  | zero =>
    intro s flag _
    simp [sregex_iterator_from]
  | succ f ih =>
    intro s flag hflag
    cases flag with
    | true =>
      have hm := hflag rfl
      obtain ⟨h1, h2⟩ := ih (s + 1) false (by simp)
      simp only [sregex_iterator_from, if_true, hm]
      refine ⟨?_, h2⟩
      intro m hmem
      have := h1 m hmem
      simpa using this
    | false =>
      cases hr : regex_search re ln s with
      | none => simp [sregex_iterator_from, hr]
      | some pe =>
        obtain ⟨p, e⟩ := pe
        obtain ⟨hsp, _, hm⟩ := regex_search_some re ln s p e hr
        have hpe := match_at_ge re ln false p e hm
        by_cases hep : e = p
        · subst hep
          by_cases hel : e = ln.length
          · simp only [sregex_iterator_from, Bool.false_eq_true, if_false, hr, if_true, hel]
            refine ⟨?_, List.pairwise_singleton _ _⟩
            intro m hmem
            simp only [List.mem_singleton] at hmem
            subst hmem
            omega
          · obtain ⟨h1, h2⟩ := ih e true (fun _ => ht ln e hm)
            simp only [sregex_iterator_from, Bool.false_eq_true, if_false, hr, if_true, hel]
            refine ⟨?_, List.pairwise_cons.mpr ⟨?_, h2⟩⟩
            · intro m hmem
              rcases List.mem_cons.mp hmem with rfl | hmem2
              · exact hsp
              · have := h1 m hmem2
                simp only [if_true] at this
                omega
            · intro m hmem
              have := h1 m hmem
              simp only [if_true] at this
              omega
        · obtain ⟨h1, h2⟩ := ih e false (by simp)
          simp only [sregex_iterator_from, Bool.false_eq_true, if_false, hr, hep]
          refine ⟨?_, List.pairwise_cons.mpr ⟨?_, h2⟩⟩
          · intro m hmem
            rcases List.mem_cons.mp hmem with rfl | hmem2
            · exact hsp
            · have := h1 m hmem2
              simp only [Bool.false_eq_true, if_false] at this
              omega
          · intro m hmem
            have := h1 m hmem
            simp only [Bool.false_eq_true, if_false] at this
            show p < m.1
            omega

theorem line_results_line_number (re : Regex) (ln : Line) (i : Nat) (r : MatchResult)
    (h : r ∈ line_results re ln i) : r.line_number = i + 1 := by
  unfold line_results at h
  obtain ⟨m, _, rfl⟩ := List.mem_map.mp h
  rfl

theorem line_results_ordered (re : Regex) (ln : Line) (i : Nat) (ht : Tight re) :
    (line_results re ln i).Pairwise file_order := by
  unfold line_results
  rw [List.pairwise_map]
  have h := (iterator_strict re ln ht (2 * ln.length + 3) 0 false (by simp)).2
  unfold sregex_iterator
  refine h.imp ?_
  intro m1 m2 hlt
  right
  exact ⟨rfl, by show m1.1 + 1 < m2.1 + 1; omega⟩

/-! ## Lemmas on the shared members -/

theorem num_threads_pos (hw : Nat) : 1 ≤ num_threads hw := by
  unfold num_threads
  split <;> omega

theorem foldl_append_results (g : Nat → List MatchResult) (order : List Nat)
    (st : MultiThreadedFinder) :
    (order.foldl (fun st i => append_results st (g i)) st).results_ =
        st.results_ ++ order.flatMap g ∧
    (order.foldl (fun st i => append_results st (g i)) st).match_count_ =
        st.match_count_ + (order.flatMap g).length ∧
    (order.foldl (fun st i => append_results st (g i)) st).lines_ = st.lines_ ∧
    (order.foldl (fun st i => append_results st (g i)) st).pattern_ = st.pattern_ := by
  induction order generalizing st with
  | nil => simp
  | cons i rest ih =>
    obtain ⟨h1, h2, h3, h4⟩ := ih (append_results st (g i))
    simp only [List.foldl_cons, List.flatMap_cons, List.length_append]
    refine ⟨?_, ?_, ?_, ?_⟩
    · rw [h1]
      simp [append_results]
    · rw [h2]
      simp only [append_results]
      omega
    · rw [h3]
      rfl
    · rw [h4]
      rfl

theorem joined_results (f : MultiThreadedFinder) (W : Nat) (order : List Nat) :
    (joined f W order).results_ = f.results_ ++ order.flatMap (local_results f W) :=
  (foldl_append_results (local_results f W) order f).1

theorem joined_match_count (f : MultiThreadedFinder) (W : Nat) (order : List Nat) :
    (joined f W order).match_count_ =
      f.match_count_ + (order.flatMap (local_results f W)).length :=
  (foldl_append_results (local_results f W) order f).2.1

theorem init_ok (file : Option (List Char)) (mask : List Char) (f : MultiThreadedFinder)
    (h : MultiThreadedFinder.init file mask = Result.ok f) :
    ∃ content, file = some content ∧ prepare_pattern mask = Result.ok f.pattern_ ∧
      f.lines_ = getlines content [] ∧ f.mask_ = mask ∧ f.results_ = [] ∧
      f.match_count_ = 0 := by
  unfold MultiThreadedFinder.init at h
  cases hp : prepare_pattern mask with
  | runtime_error => simp [hp] at h
  | unmodelled => simp [hp] at h
  | ok re =>
    cases file with
    | none => simp [hp, read_file] at h
    | some content =>
      simp only [hp, read_file] at h
      have h2 := Result.ok.inj h
      subst h2
      exact ⟨content, rfl, rfl, rfl, rfl, rfl, rfl⟩

theorem filter_lt_range (k W : Nat) (h : k ≤ W) :
    (List.range W).filter (fun i => decide (i < k)) = List.range k := by
  induction W with
  | zero =>
    have : k = 0 := by omega
    subst this
    rfl
  | succ n ih =>
    rcases Nat.lt_or_ge k (n + 1) with hk | hk
    · rw [List.range_succ, List.filter_append, ih (by omega)]
      have hn : ¬ n < k := by omega
      simp [hn]
    · have hk2 : k = n + 1 := by omega
      subst hk2
      rw [List.filter_eq_self]
      intro a ha
      simpa using List.mem_range.mp ha

/-! ## Claims -/

/-- C1 (code defect): the claim asks that two consecutive matches of a line
lie at least the mask length apart.  For the mask `a*` the escaping of
`prepare_pattern` yields the expression "a, then any number of backslashes",
which matches a single `a`; on the line `aa` the scan reports columns 1 and 2
although the mask has length 2. -/
theorem search_in_lines_overlap_at_star_mask :
    scan_lines ['a', '*'] [['a', 'a']] =
      Result.ok [{ line_number := 1, position := 1, match_ := ['a'] },
                 { line_number := 1, position := 2, match_ := ['a'] }] ∧
    ¬ non_overlapping ['a', '*'].length
      [{ line_number := 1, position := 1, match_ := ['a'] },
       { line_number := 1, position := 2, match_ := ['a'] }] := by
  decide

/-- C2 (code defect): the claim asks that a special character of the mask is
matched literally.  The mask `a.b` is compiled to "a, backslash, any
character, b": the line `a.b` yields no match at all, while the line `a\xb`
yields a match of four characters whose second character is not the `.` of
the mask. -/
theorem search_in_lines_dot_not_literal :
    regex_pattern ['a', '.', 'b'] = ['a', '\\', '\\', '.', 'b'] ∧
    scan_lines ['a', '.', 'b'] [['a', '.', 'b']] = Result.ok [] ∧
    scan_lines ['a', '.', 'b'] [['a', '\\', 'x', 'b']] =
      Result.ok [{ line_number := 1, position := 1, match_ := ['a', '\\', 'x', 'b'] }] := by
  decide

/-- C3 (counterexample): the empty mask and a mask that contains a line feed
are compiled without error, and with the empty mask on the one-line file `ab`
the search runs and reports three records. -/
theorem prepare_pattern_accepts_empty_and_newline :
    prepare_pattern [] = Result.ok Regex.eps ∧
    prepare_pattern ['a', '\n'] =
      Result.ok (Regex.seq (Regex.chr 'a') (Regex.seq (Regex.chr '\n') Regex.eps)) ∧
    (∃ f, MultiThreadedFinder.init (some ['a', 'b', '\n']) [] = Result.ok f ∧
      search_admits f 1 [0] (local_results f 1 0) ∧
      main [['f'], []] (fun _ => some ['a', 'b', '\n']) 1 [0] (local_results f 1 0) =
        Result.ok (0, ["3", "1 1 ", "1 2 ", "1 3 "])) := by
  refine ⟨by decide, by decide, ⟨_, _, _, [], 0⟩, rfl, by decide, by decide⟩

/-- C3 (amended): `prepare_pattern` does not reject the empty mask or a line
terminator: every mask made of `?` and of characters outside the escaped
class (line feed and carriage return are such characters, and the empty mask
is such a mask) is compiled without error.  Whenever `prepare_pattern` does
throw, `main` ends with status 1 and has written nothing: no search is run
and no match is reported. -/
theorem prepare_pattern_total_on_plain_masks :
    (∀ mask : List Char, plain_mask mask →
      prepare_pattern mask = Result.ok (mk_seq (mask.map plain_atom).reverse)) ∧
    plain_mask [] ∧ plain_mask ['\n'] ∧ plain_mask ['\r'] ∧
    (∀ (filename mask : List Char) (fs : List Char → Option (List Char)) (hw : Nat)
        (order : List Nat) (sorted : List MatchResult),
      prepare_pattern mask = Result.runtime_error →
      main [filename, mask] fs hw order sorted = Result.ok (1, [])) := by
  refine ⟨prepare_pattern_plain, by decide, by decide, by decide, ?_⟩
  intro filename mask fs hw order sorted h
  simp [main, MultiThreadedFinder.init, h]

/-- Witness for C3 (amended): a plain mask with a line feed, and a mask whose
compilation throws. -/
theorem prepare_pattern_total_on_plain_masks_witness :
    prepare_pattern ['a', '\n', '?'] =
      Result.ok (mk_seq (['a', '\n', '?'].map plain_atom).reverse) ∧
    main [['f'], ['(']] (fun _ => some ['(']) 4 [0] [] = Result.ok (1, []) :=
  ⟨prepare_pattern_total_on_plain_masks.1 ['a', '\n', '?'] (by decide),
   prepare_pattern_total_on_plain_masks.2.2.2.2 ['f'] ['('] (fun _ => some ['(']) 4 [0] []
     (by decide)⟩

/-- C4 (code defect): the claim asks for a result ordered by line number and
then by position.  `std::sort` is called with a comparison on the line number
only and is not stable; for a file with one line of 17 letters `a` and the
mask `a`, the order `introsort_17` satisfies its contract and is the final
content of `results_`, with column 9 first. -/
theorem search_result_not_in_file_order :
    ∃ f, MultiThreadedFinder.init (some (List.replicate 17 'a')) ['a'] = Result.ok f ∧
      search_admits f 1 [0] introsort_17 ∧
      ¬ in_file_order (search f 1 [0] introsort_17).results_ := by
  refine ⟨⟨['a'], Regex.seq (Regex.chr 'a') Regex.eps, [List.replicate 17 'a'], [], 0⟩,
    by decide, by decide, by decide⟩

/-- C5: the chunk size `c` computed by `search` is `ceil(N / W)`, the least
`k` with `N ≤ k * W`, and the ranges `[i*c, min(i*c + c, N))` of the rounds
`i < W` partition `[0, N)`: every line index below `N` lies in the range of
exactly one round, no range holds an index that is not below `N`, and when
`N < W` some round has an empty range. -/
theorem search_ranges_partition (N W : Nat) (hW : 1 ≤ W) :
    (N ≤ lines_per_thread N W * W ∧ ∀ k, N ≤ k * W → lines_per_thread N W ≤ k) ∧
    (∀ j, j < N → ∃! i, i < W ∧ start_line N W i ≤ j ∧ j < end_line N W i) ∧
    (∀ i j, i < W → start_line N W i ≤ j → j < end_line N W i → j < N) ∧
    (N < W → ∃ i, i < W ∧ end_line N W i ≤ start_line N W i) := by
  refine ⟨⟨lines_le_chunks N W hW, ?_⟩, ?_, ?_, ?_⟩
  · intro k hk
    have h1 : lines_per_thread N W < k + 1 := by
      unfold lines_per_thread
      rw [Nat.div_lt_iff_lt_mul (by omega)]
      rw [Nat.succ_mul]
      omega
    omega
  · intro j hj
    have hc : 0 < lines_per_thread N W := lines_per_thread_pos N W hW (by omega)
    have hcov := lines_le_chunks N W hW
    refine ⟨j / lines_per_thread N W, ⟨?_, ?_, ?_⟩, ?_⟩
    · rw [Nat.div_lt_iff_lt_mul hc]
      rw [Nat.mul_comm]
      omega
    · exact Nat.div_mul_le_self j _
    · unfold end_line start_line
      have h1 : j < j / lines_per_thread N W * lines_per_thread N W + lines_per_thread N W := by
        have h2 := Nat.div_add_mod j (lines_per_thread N W)
        have h3 := Nat.mod_lt j hc
        have h4 : lines_per_thread N W * (j / lines_per_thread N W) =
            j / lines_per_thread N W * lines_per_thread N W := Nat.mul_comm _ _
        omega
      exact lt_min h1 hj
    · rintro i ⟨_, hlo, hhi⟩
      unfold end_line at hhi
      unfold start_line at hlo hhi
      have hhi2 : j < i * lines_per_thread N W + lines_per_thread N W :=
        lt_of_lt_of_le hhi (min_le_left _ _)
      have hhi3 : j < (i + 1) * lines_per_thread N W := by
        rw [Nat.succ_mul]
        exact hhi2
      exact (Nat.div_eq_of_lt_le hlo hhi3).symm
  · intro i j _ _ hhi
    unfold end_line at hhi
    exact lt_of_lt_of_le hhi (min_le_right _ _)
  · intro hlt
    refine ⟨W - 1, by omega, ?_⟩
    unfold end_line
    rcases Nat.eq_zero_or_pos N with h0 | hpos
    · subst h0
      simp
    · have hc : 0 < lines_per_thread N W := lines_per_thread_pos N W hW hpos
      have h1 : W - 1 ≤ (W - 1) * lines_per_thread N W := Nat.le_mul_of_pos_right _ hc
      have h2 : N ≤ start_line N W (W - 1) := by
        unfold start_line
        omega
      exact le_trans (min_le_right _ _) h2

/-- Witness for C5: three lines and eight threads. -/
theorem search_ranges_partition_witness :
    1 ≤ 8 ∧
    ((3 ≤ lines_per_thread 3 8 * 8 ∧ ∀ k, 3 ≤ k * 8 → lines_per_thread 3 8 ≤ k) ∧
     (∀ j, j < 3 → ∃! i, i < 8 ∧ start_line 3 8 i ≤ j ∧ j < end_line 3 8 i) ∧
     (∀ i j, i < 8 → start_line 3 8 i ≤ j → j < end_line 3 8 i → j < 3) ∧
     (3 < 8 → ∃ i, i < 8 ∧ end_line 3 8 i ≤ start_line 3 8 i)) :=
  ⟨by decide, search_ranges_partition 3 8 (by decide)⟩

/-- C6 (code defect): the claim asks that the reported count is the number of
matches the scanner of section 4.4 finds.  For the mask `a.b` and the one-line
file `a.b` that scanner finds one match, while `match_count_` is 0 after the
search. -/
theorem match_count_differs_from_spec_scan :
    ∃ f, MultiThreadedFinder.init (some ['a', '.', 'b', '\n']) ['a', '.', 'b'] = Result.ok f ∧
      search_admits f 1 [0] [] ∧
      (search f 1 [0] []).match_count_ = 0 ∧
      (f.lines_.map (fun l => (spec_scan (spec_compile f.mask_) l).length)).sum = 1 := by
  refine ⟨⟨_, _, _, [], 0⟩, rfl, by decide, by decide, by decide⟩

/-- C7 (code defect): the claim asks that the output does not depend on the
number of threads or on the order in which they finish.  For the mask `a` and
a file whose first line is 16 letters `a` and whose second line is `a`, two
threads that append in the two possible orders may leave `introsort_first` and
`introsort_second`; both satisfy the contract of `std::sort`, the printed
lines differ, and neither is the serial scan in file order. -/
theorem search_output_depends_on_completion_order :
    ∃ f, MultiThreadedFinder.init (some (List.replicate 16 'a' ++ ['\n', 'a', '\n'])) ['a'] =
        Result.ok f ∧
      search_admits f 2 [0, 1] introsort_first ∧
      search_admits f 2 [1, 0] introsort_second ∧
      print_results (search f 2 [0, 1] introsort_first) ≠
        print_results (search f 2 [1, 0] introsort_second) ∧
      (search f 2 [0, 1] introsort_first).results_ ≠ search_in_lines f.pattern_ f.lines_ 0 2 ∧
      (search f 2 [1, 0] introsort_second).results_ ≠ search_in_lines f.pattern_ f.lines_ 0 2 := by
  refine ⟨⟨['a'], Regex.seq (Regex.chr 'a') Regex.eps, [List.replicate 16 'a', ['a']], [], 0⟩,
    by decide, by decide, by decide, by decide, by decide, by decide⟩

/-- C8 (code defect): the claim asks that every record holds exactly the
mask-length characters of its line from its column.  For the mask `a*` (length
2) the line `a` (length 1) yields a record at column 1 with the one-character
text `a`. -/
theorem search_in_lines_record_not_well_formed :
    scan_lines ['a', '*'] [['a']] =
      Result.ok [{ line_number := 1, position := 1, match_ := ['a'] }] ∧
    ¬ well_formed [['a']] ['a', '*'].length
      { line_number := 1, position := 1, match_ := ['a'] } := by
  decide

/-- C9 (code defect): the claim asks that every start at which the mask
matches the line (literal cells equal, wildcard cells free) overlaps a
reported match.  The mask `a.b` matches the line `a.b` at start 0 in that
sense, and the scan reports nothing for this line. -/
theorem search_in_lines_misses_literal_occurrence :
    cells_match (spec_compile ['a', '.', 'b']) (List.drop 0 ['a', '.', 'b']) = true ∧
    0 + ['a', '.', 'b'].length ≤ ['a', '.', 'b'].length ∧
    scan_lines ['a', '.', 'b'] [['a', '.', 'b']] = Result.ok [] := by
  decide

/-- C10 (code defect): the claim asks that a mask of `L` wildcards yields
`floor(n / L)` matches on every line of length `n`.  The wildcard is compiled
to `.`, which does not match a carriage return: for the mask `???` and a file
whose single line is `a`, carriage return, `b`, the line read has three
characters and the scan reports nothing. -/
theorem search_in_lines_wildcard_rejects_carriage_return :
    ∃ f, MultiThreadedFinder.init (some ['a', '\r', 'b', '\n']) ['?', '?', '?'] = Result.ok f ∧
      f.lines_ = [['a', '\r', 'b']] ∧
      f.pattern_ = Regex.seq Regex.any (Regex.seq Regex.any (Regex.seq Regex.any Regex.eps)) ∧
      local_results f 1 0 = [] ∧
      ['a', '\r', 'b'].length / ['?', '?', '?'].length = 1 := by
  refine ⟨⟨_, _, _, [], 0⟩, rfl, by decide, by decide, by decide, by decide⟩

/-- C13: for a file with zero lines and a mask that compiles, `search` creates
no thread for any value of the hardware concurrency (the chunk size is 0 and
no range start is below the line count), the count is 0, no record is left in
`results_`, and `main` ends with status 0 after printing the single line
`0`. -/
theorem search_on_empty_file (filename mask : List Char)
    (fs : List Char → Option (List Char)) (f : MultiThreadedFinder) (hw : Nat)
    (order : List Nat) (sorted : List MatchResult)
    (hfs : fs filename = some [])
    (hinit : MultiThreadedFinder.init (fs filename) mask = Result.ok f)
    (hrun : search_admits f hw order sorted) :
    f.lines_ = [] ∧
    lines_per_thread f.lines_.length (num_threads hw) = 0 ∧
    (∀ i, ¬ start_line f.lines_.length (num_threads hw) i < f.lines_.length) ∧
    launched f.lines_.length (num_threads hw) = [] ∧
    order = [] ∧
    (search f hw order sorted).match_count_ = 0 ∧
    (search f hw order sorted).results_ = [] ∧
    main [filename, mask] fs hw order sorted = Result.ok (0, ["0"]) := by
  obtain ⟨content, hc, _, hlines, _, hres, hcount⟩ := init_ok _ _ _ hinit
  rw [hfs] at hc
  have hc2 : content = [] := (Option.some.inj hc).symm
  subst hc2
  have hl : f.lines_ = [] := by rw [hlines]; rfl
  have hW := num_threads_pos hw
  have hlaunch : launched f.lines_.length (num_threads hw) = [] := by
    unfold launched
    rw [List.filter_eq_nil_iff]
    intro i _
    simp [hl]
  obtain ⟨hperm, hsort⟩ := hrun
  rw [hlaunch] at hperm
  have horder : order = [] := List.Perm.eq_nil hperm
  subst horder
  have hj : (joined f (num_threads hw) []).results_ = [] := by
    rw [joined_results, hres]
    rfl
  have hsorted : sorted = [] := by
    have h1 := hsort.1
    rw [hj] at h1
    exact List.Perm.eq_nil h1
  subst hsorted
  have hmc : (search f hw [] []).match_count_ = 0 := by
    unfold search
    show (joined f (num_threads hw) []).match_count_ = 0
    rw [joined_match_count, hcount]
    rfl
  refine ⟨hl, ?_, ?_, hlaunch, rfl, hmc, rfl, ?_⟩
  · rw [hl]
    unfold lines_per_thread
    apply Nat.div_eq_of_lt
    simp only [List.length_nil]
    omega
  · intro i
    rw [hl]
    simp
  · have hres2 : (search f hw [] []).results_ = [] := rfl
    simp only [main, hinit, print_results, hmc, hres2, List.map_nil]
    rfl

/-- Witness for C13: the empty file, the mask `ab`, four hardware threads. -/
theorem search_on_empty_file_witness :
    main [['f'], ['a', 'b']] (fun _ => some []) 4 [] [] = Result.ok (0, ["0"]) :=
  (search_on_empty_file ['f'] ['a', 'b'] (fun _ => some [])
    { mask_ := ['a', 'b'],
      pattern_ := Regex.seq (Regex.chr 'a') (Regex.seq (Regex.chr 'b') Regex.eps),
      lines_ := [], results_ := [], match_count_ := 0 }
    4 [] [] rfl (by decide) (by decide)).2.2.2.2.2.2.2

/-- C14: the constructor throws exactly when `prepare_pattern` throws or, the
pattern being compiled, the file cannot be opened; then `main` ends with
status 1 and has written nothing to standard output.  With an argument count
other than two `main` also ends with status 1 and no output.  When the
constructor succeeds `main` ends with status 0, and its output starts with the
count line. -/
theorem main_exit_status :
    (∀ (file : Option (List Char)) (mask : List Char),
      MultiThreadedFinder.init file mask = Result.runtime_error ↔
        (prepare_pattern mask = Result.runtime_error ∨
          ((∃ re, prepare_pattern mask = Result.ok re) ∧ file = none))) ∧
    (∀ (filename mask : List Char) (fs : List Char → Option (List Char)) (hw : Nat)
        (order : List Nat) (sorted : List MatchResult),
      MultiThreadedFinder.init (fs filename) mask = Result.runtime_error →
      main [filename, mask] fs hw order sorted = Result.ok (1, [])) ∧
    (∀ (args : List (List Char)) (fs : List Char → Option (List Char)) (hw : Nat)
        (order : List Nat) (sorted : List MatchResult),
      args.length ≠ 2 → main args fs hw order sorted = Result.ok (1, [])) ∧
    (∀ (filename mask : List Char) (fs : List Char → Option (List Char)) (hw : Nat)
        (order : List Nat) (sorted : List MatchResult) (f : MultiThreadedFinder),
      MultiThreadedFinder.init (fs filename) mask = Result.ok f →
      main [filename, mask] fs hw order sorted =
        Result.ok (0, toString (search f hw order sorted).match_count_ ::
          (print_results (search f hw order sorted)).tail)) := by
  refine ⟨?_, ?_, ?_, ?_⟩
  · intro file mask
    unfold MultiThreadedFinder.init
    cases hp : prepare_pattern mask with
    | runtime_error => simp
    | unmodelled => simp
    | ok re =>
      cases file with
      | none => simp [read_file]
      | some content => simp [read_file]
  · intro filename mask fs hw order sorted h
    simp [main, h]
  · intro args fs hw order sorted h
    unfold main
    match args, h with
    | [], _ => rfl
    | [_], _ => rfl
    | [_, _], h => exact absurd rfl h
    | _ :: _ :: _ :: _, _ => rfl
  · intro filename mask fs hw order sorted f h
    simp [main, h, print_results]

/-- Witness for C14: a mask with an unclosed parenthesis, a missing file, a
missing argument and a successful run. -/
theorem main_exit_status_witness :
    main [['f'], ['(']] (fun _ => some ['x', '\n']) 2 [0] [] = Result.ok (1, []) ∧
    main [['f'], ['x']] (fun _ => none) 2 [0] [] = Result.ok (1, []) ∧
    main [['f']] (fun _ => some ['x', '\n']) 2 [0] [] = Result.ok (1, []) ∧
    main [['f'], ['x']] (fun _ => some ['x', '\n']) 2 [0]
        [{ line_number := 1, position := 1, match_ := ['x'] }] =
      Result.ok (0, ["1", "1 1 x"]) :=
  ⟨main_exit_status.2.1 ['f'] ['('] (fun _ => some ['x', '\n']) 2 [0] [] (by decide),
   main_exit_status.2.1 ['f'] ['x'] (fun _ => none) 2 [0] [] (by decide),
   main_exit_status.2.2.1 [['f']] (fun _ => some ['x', '\n']) 2 [0] [] (by decide),
   by decide⟩

/-- C17: in every run of `search` on a freshly constructed object the final
`results_` is a rearrangement of the concatenation of the buffers of the
created threads, its line numbers never decrease, and `match_count_`, which
`print_results` writes as the first line, is the number of its records. -/
theorem search_aggregation (file : Option (List Char)) (mask : List Char)
    (f : MultiThreadedFinder) (hw : Nat) (order : List Nat) (sorted : List MatchResult)
    (hinit : MultiThreadedFinder.init file mask = Result.ok f)
    (hrun : search_admits f hw order sorted) :
    (search f hw order sorted).results_.Perm
      ((launched f.lines_.length (num_threads hw)).flatMap
        (local_results f (num_threads hw))) ∧
    (search f hw order sorted).results_.Pairwise
      (fun a b => a.line_number ≤ b.line_number) ∧
    (search f hw order sorted).match_count_ = (search f hw order sorted).results_.length ∧
    (print_results (search f hw order sorted)).head? =
      some (toString (search f hw order sorted).results_.length) ∧
    (print_results (search f hw order sorted)).length =
      (search f hw order sorted).results_.length + 1 := by
  obtain ⟨_, _, _, _, _, hres, hcount⟩ := init_ok _ _ _ hinit
  obtain ⟨hperm, hsp, hsorted⟩ := hrun
  have hj : (joined f (num_threads hw) order).results_ =
      order.flatMap (local_results f (num_threads hw)) := by
    rw [joined_results, hres]
    rfl
  rw [hj] at hsp
  have hres2 : (search f hw order sorted).results_ = sorted := rfl
  have hmc : (search f hw order sorted).match_count_ = sorted.length := by
    show (joined f (num_threads hw) order).match_count_ = sorted.length
    rw [joined_match_count, hcount, hsp.length_eq]
    omega
  refine ⟨?_, ?_, ?_, ?_, ?_⟩
  · rw [hres2]
    exact hsp.trans (List.Perm.flatMap_right _ hperm)
  · rw [hres2]
    exact hsorted.imp (fun h => Nat.le_of_not_lt h)
  · rw [hmc, hres2]
  · simp only [print_results, List.head?_cons, hmc, hres2]
  · simp [print_results]

/-- Witness for C17: two lines, the mask `a`, two threads that append in
reverse order. -/
theorem search_aggregation_witness :
    (search { mask_ := ['a'], pattern_ := Regex.seq (Regex.chr 'a') Regex.eps,
              lines_ := [['a', 'a'], ['b', 'a']], results_ := [], match_count_ := 0 }
        2 [1, 0]
        [{ line_number := 1, position := 2, match_ := ['a'] },
         { line_number := 1, position := 1, match_ := ['a'] },
         { line_number := 2, position := 2, match_ := ['a'] }]).match_count_ = 3 :=
  (search_aggregation (some ['a', 'a', '\n', 'b', 'a', '\n']) ['a']
    { mask_ := ['a'], pattern_ := Regex.seq (Regex.chr 'a') Regex.eps,
      lines_ := [['a', 'a'], ['b', 'a']], results_ := [], match_count_ := 0 }
    2 [1, 0]
    [{ line_number := 1, position := 2, match_ := ['a'] },
     { line_number := 1, position := 1, match_ := ['a'] },
     { line_number := 2, position := 2, match_ := ['a'] }]
    (by decide) (by decide)).2.2.1

/-- C18: for at least one line and at least one thread, the chunk size `c` is
at least one; `search` creates a thread exactly in the rounds `0 .. k-1`,
where `k = ceil(N / c)` is the least number with `N ≤ k * c` and is at most
`W`; every created thread has a non-empty range, every one but the last has
exactly `c` lines, and the last has between 1 and `c` lines. -/
theorem search_launches_nonempty_ranges (N W : Nat) (hN : 1 ≤ N) (hW : 1 ≤ W) :
    1 ≤ lines_per_thread N W ∧
    launched N W = List.range ((N + lines_per_thread N W - 1) / lines_per_thread N W) ∧
    (N ≤ (N + lines_per_thread N W - 1) / lines_per_thread N W * lines_per_thread N W ∧
      ∀ k, N ≤ k * lines_per_thread N W →
        (N + lines_per_thread N W - 1) / lines_per_thread N W ≤ k) ∧
    1 ≤ (N + lines_per_thread N W - 1) / lines_per_thread N W ∧
    (N + lines_per_thread N W - 1) / lines_per_thread N W ≤ W ∧
    (∀ i ∈ launched N W, start_line N W i < end_line N W i) ∧
    (∀ i, i + 1 < (N + lines_per_thread N W - 1) / lines_per_thread N W →
      end_line N W i - start_line N W i = lines_per_thread N W) ∧
    (1 ≤ end_line N W ((N + lines_per_thread N W - 1) / lines_per_thread N W - 1) -
        start_line N W ((N + lines_per_thread N W - 1) / lines_per_thread N W - 1) ∧
      end_line N W ((N + lines_per_thread N W - 1) / lines_per_thread N W - 1) -
        start_line N W ((N + lines_per_thread N W - 1) / lines_per_thread N W - 1) ≤
        lines_per_thread N W) := by
  have hc : 0 < lines_per_thread N W := lines_per_thread_pos N W hW (by omega)
  have hcov := lines_le_chunks N W hW
  generalize hcdef : lines_per_thread N W = c at hc hcov
  rw [Nat.mul_comm] at hcov
  have hstart : ∀ i, start_line N W i = i * c := by
    intro i
    unfold start_line
    rw [hcdef]
  have hend : ∀ i, end_line N W i = min (i * c + c) N := by
    intro i
    unfold end_line
    rw [hstart, hcdef]
  -- `i * c < N` holds exactly for the rounds below `k`
  have hiff : ∀ i, i * c < N ↔ i < (N + c - 1) / c := by
    intro i
    rw [Nat.lt_iff_add_one_le (m := i), Nat.le_div_iff_mul_le hc, Nat.succ_mul]
    omega
  have hkW : (N + c - 1) / c ≤ W := by
    have h1 : (N + c - 1) / c < W + 1 := by
      rw [Nat.div_lt_iff_lt_mul hc, Nat.succ_mul]
      omega
    omega
  have hk1 : 1 ≤ (N + c - 1) / c := by
    have := (hiff 0).mp (by omega)
    omega
  have hlaunch : launched N W = List.range ((N + c - 1) / c) := by
    unfold launched
    rw [← filter_lt_range _ W hkW]
    apply List.filter_congr
    intro i _
    rw [hstart]
    simp only [decide_eq_decide]
    exact hiff i
  refine ⟨hc, hlaunch, ⟨?_, ?_⟩, hk1, hkW, ?_, ?_, ?_⟩
  · have h1 : ¬ ((N + c - 1) / c * c < N) := by
      rw [hiff]
      omega
    omega
  · intro k hk
    have h1 : (N + c - 1) / c < k + 1 := by
      rw [Nat.div_lt_iff_lt_mul hc, Nat.succ_mul]
      omega
    omega
  · intro i hi
    rw [hlaunch] at hi
    have h1 : i * c < N := (hiff i).mpr (List.mem_range.mp hi)
    rw [hstart, hend]
    exact lt_min (by omega) h1
  · intro i hi
    have h1 : (i + 1) * c < N := (hiff (i + 1)).mpr hi
    rw [Nat.succ_mul] at h1
    rw [hstart, hend, Nat.min_eq_left (by omega)]
    omega
  · have h1 : ((N + c - 1) / c - 1) * c < N := (hiff _).mpr (by omega)
    rw [hstart, hend]
    constructor
    · have h2 : (N + c - 1) / c - 1 < min (((N + c - 1) / c - 1) * c + c) N - ((N + c - 1) / c - 1) * c + ((N + c - 1) / c - 1) := by
        have := lt_min (show ((N + c - 1) / c - 1) * c < ((N + c - 1) / c - 1) * c + c by omega) h1
        omega
      omega
    · have := min_le_left (((N + c - 1) / c - 1) * c + c) N
      omega

/-- Witness for C18: ten lines and four threads (chunks of three lines, the
last thread gets one line). -/
theorem search_launches_nonempty_ranges_witness :
    1 ≤ 10 ∧ 1 ≤ 4 ∧ launched 10 4 = List.range ((10 + lines_per_thread 10 4 - 1) /
      lines_per_thread 10 4) :=
  ⟨by decide, by decide, (search_launches_nonempty_ranges 10 4 (by decide) (by decide)).2.1⟩

/-- C11 (code defect): the claim asks that a mask without `?` is found exactly
where it occurs in the line.  The mask `1+1` is compiled to "1, one or more
backslashes, 1": on the line `1+1=2` the scan reports nothing, and on the line
`1\1` it reports a text that is not the mask.  The mask `foo` of the claim,
which has no special character, is found at columns 1 and 7 of
`foobarfoobar`. -/
theorem search_in_lines_literal_mask_not_found :
    scan_lines ['1', '+', '1'] [['1', '+', '1', '=', '2']] = Result.ok [] ∧
    scan_lines ['1', '+', '1'] [['1', '\\', '1']] =
      Result.ok [{ line_number := 1, position := 1, match_ := ['1', '\\', '1'] }] ∧
    scan_lines ['f', 'o', 'o']
        [['f', 'o', 'o', 'b', 'a', 'r', 'f', 'o', 'o', 'b', 'a', 'r']] =
      Result.ok [{ line_number := 1, position := 1, match_ := ['f', 'o', 'o'] },
                 { line_number := 1, position := 7, match_ := ['f', 'o', 'o'] }] := by
  decide

/-- C12 (code defect): the claim asks for the count 0 when the mask is longer
than every line.  The mask `*` (length 1) is compiled to "any number of
backslashes", which matches the empty text: for a file that consists of one
empty line the run prints the count 1 and one record. -/
theorem search_counts_match_on_shorter_line :
    ∃ f, MultiThreadedFinder.init (some ['\n']) ['*'] = Result.ok f ∧
      f.lines_ = [[]] ∧
      search_admits f 1 [0] [{ line_number := 1, position := 1, match_ := [] }] ∧
      main [['f'], ['*']] (fun _ => some ['\n']) 1 [0]
          [{ line_number := 1, position := 1, match_ := [] }] =
        Result.ok (0, ["1", "1 1 "]) := by
  refine ⟨⟨_, _, _, [], 0⟩, rfl, by decide, by decide, by decide⟩

/-- C15 (code defect): the claim asks that the scan of the code yields the
list of the reference loop of section 4.4.  For the mask `a|b` (compiled to
"a and a backslash, or b") and the line `b` the code reports a record at
column 1 with the text `b`, the reference loop reports nothing. -/
theorem line_results_differ_from_spec_scan :
    prepare_pattern ['a', '|', 'b'] =
      Result.ok (Regex.alt (Regex.seq (Regex.chr 'a') (Regex.seq (Regex.chr '\\') Regex.eps))
        (Regex.seq (Regex.chr 'b') Regex.eps)) ∧
    line_results
        (Regex.alt (Regex.seq (Regex.chr 'a') (Regex.seq (Regex.chr '\\') Regex.eps))
          (Regex.seq (Regex.chr 'b') Regex.eps)) ['b'] 0 =
      [{ line_number := 1, position := 1, match_ := ['b'] }] ∧
    spec_scan (spec_compile ['a', '|', 'b']) ['b'] = [] := by
  decide

/-- C19: the scan of a line ends for every expression and every line: with a
budget of `2 * length + 1` steps or more the iterator reaches its end and has
produced the list `sregex_iterator`; the repetition inside a match needs at
most `length` rounds.  The empty mask is compiled without error, and for it a
line of length `n` yields the `n + 1` records with columns `1 .. n + 1` and
empty text. -/
theorem sregex_iterator_terminates :
    (∀ (re : Regex) (ln : Line) (fuel : Nat), 2 * ln.length + 1 ≤ fuel →
      sregex_iterator_run re ln fuel 0 false = some (sregex_iterator re ln)) ∧
    (∀ (a : Regex) (ln : Line) (p fuel : Nat), p ≤ ln.length → ln.length ≤ fuel →
      star_iter (ends ln a) fuel p = ends ln (Regex.star a) p) ∧
    prepare_pattern [] = Result.ok Regex.eps ∧
    (∀ (ln : Line) (i : Nat),
      line_results Regex.eps ln i =
        (List.range (ln.length + 1)).map
          (fun p => { line_number := i + 1, position := p + 1, match_ := [] })) := by
  refine ⟨?_, ?_, by decide, ?_⟩
  · intro re ln fuel hfuel
    exact iterator_run_eq re ln (2 * ln.length + 1) 0 false fuel (2 * ln.length + 3)
      (by simp) (by simp) hfuel (by omega)
  · intro a ln p fuel hp hfuel
    simp only [ends]
    exact star_iter_fuel _ ln.length (fun q x hq hx => ends_le ln a q x hq hx) ln.length
      fuel ln.length p hp (by omega) hfuel (Nat.le_refl _)
  · intro ln i
    unfold line_results sregex_iterator
    rw [iterator_eps ln ln.length 0 _ (by omega) (by omega), List.range_eq_range',
      List.map_map]
    apply List.map_congr_left
    intro p _
    simp

/-- Witness for C19: the empty mask on the line `ab`. -/
theorem sregex_iterator_terminates_witness :
    sregex_iterator_run Regex.eps ['a', 'b'] 5 0 false =
      some (sregex_iterator Regex.eps ['a', 'b']) ∧
    line_results Regex.eps ['a', 'b'] 0 =
      (List.range 3).map (fun p => { line_number := 1, position := p + 1, match_ := [] }) :=
  ⟨sregex_iterator_terminates.1 Regex.eps ['a', 'b'] 5 (by decide),
   sregex_iterator_terminates.2.2.2 ['a', 'b'] 0⟩

/-- C16: for every mask that compiles and every range of line indices, the
buffer `search_in_lines` builds is ordered: of two records the earlier one
has the smaller line number or, on the same line, the strictly smaller
column; and every line number lies in `[start_line + 1, end_line]`. -/
theorem search_in_lines_buffer_ordered (mask : List Char) (re : Regex) (lines : List Line)
    (start_line end_line : Nat) (h : prepare_pattern mask = Result.ok re) :
    (search_in_lines re lines start_line end_line).Pairwise file_order ∧
    (search_in_lines re lines start_line end_line).Pairwise
      (fun x y => x.line_number ≤ y.line_number ∧
        (x.line_number = y.line_number → x.position < y.position)) ∧
    (∀ r ∈ search_in_lines re lines start_line end_line,
      start_line + 1 ≤ r.line_number ∧ r.line_number ≤ end_line) := by
  have ht := prepare_pattern_tight mask re h
  have hord : (search_in_lines re lines start_line end_line).Pairwise file_order := by
    unfold search_in_lines
    rw [List.pairwise_flatMap]
    refine ⟨fun i _ => line_results_ordered re _ i ht, ?_⟩
    refine (List.pairwise_lt_range' start_line (end_line - start_line)).imp ?_
    intro i j hij x hx y hy
    left
    rw [line_results_line_number re _ i x hx, line_results_line_number re _ j y hy]
    omega
  refine ⟨hord, hord.imp ?_, ?_⟩
  · intro x y hxy
    rcases hxy with hlt | ⟨heq, hpos⟩
    · exact ⟨Nat.le_of_lt hlt, fun he => by omega⟩
    · exact ⟨Nat.le_of_eq heq, fun _ => hpos⟩
  · intro r hr
    unfold search_in_lines at hr
    obtain ⟨i, hi, hri⟩ := List.mem_flatMap.mp hr
    have hrange := List.mem_range'_1.mp hi
    rw [line_results_line_number re _ i r hri]
    omega

/-- Witness for C16: the mask `a*` on the lines `aa` and `ba`. -/
theorem search_in_lines_buffer_ordered_witness :
    (search_in_lines (Regex.seq (Regex.chr 'a') (Regex.seq (Regex.star (Regex.chr '\\')) Regex.eps))
      [['a', 'a'], ['b', 'a']] 0 2).Pairwise file_order :=
  (search_in_lines_buffer_ordered ['a', '*']
    (Regex.seq (Regex.chr 'a') (Regex.seq (Regex.star (Regex.chr '\\')) Regex.eps))
    [['a', 'a'], ['b', 'a']] 0 2 (by decide)).1

end MTFind
